import Mathlib

/-!
Verification development for the firecrawl-migrator repository.

The development shallowly embeds the two source files:
* `src/app/api/crawl/route.ts` (the crawl orchestrator, schema inference and
  markdown extraction heuristics) — namespace `Crawl`;
* the page component (URL tree builder and export formatter) — namespaces
  `TreeB` and `Exporter`.

Conventions of the embedding:
* JavaScript strings are modelled as `List Char` (wrapped into `String` at the
  few places where a theorem statement benefits); regular-expression matching
  is embedded as explicit character-level matchers that implement the concrete
  patterns appearing in the source, including greedy/backtracking behaviour
  where it is observable.
* JavaScript numbers are IEEE doubles; the embedding models them as exact
  values (`Int` for the export layer, `Rat` for parsed numeric field values).
  Double formatting/rounding is outside the embedding.
* The external page fetcher (`firecrawl-js`), the platform URL parser, the
  platform JSON (de)serialiser and the clock are external collaborators; they
  enter the model as oracle parameters or as definitions modelled from their
  documented behaviour.
-/

namespace JsStr

/-- Characters treated as whitespace by the embedding (the `\s` class and
`String.prototype.trim` for the ASCII range used by the source data). -/
def isWs (c : Char) : Bool :=
  c = ' ' || c = '\t' || c = '\n' || c = '\r' || c = '\x0b' || c = '\x0c'

def isDigitCh (c : Char) : Bool :=
  '0' ≤ c && c ≤ '9'

/-- ASCII lower-casing, the fragment of `String.prototype.toLowerCase`
exercised by the source. -/
def toLowerCh (c : Char) : Char :=
  if 'A' ≤ c && c ≤ 'Z' then Char.ofNat (c.toNat + 32) else c

def toLowerL (cs : List Char) : List Char := cs.map toLowerCh

/-- Case-insensitive character comparison (the `i` regex flag). -/
def eqCI (a b : Char) : Bool := toLowerCh a = toLowerCh b

/-- `trim`: drop leading and trailing whitespace. -/
def trimL (cs : List Char) : List Char :=
  (((cs.dropWhile fun c => isWs c).reverse.dropWhile fun c => isWs c)).reverse

/-- Match a literal string case-insensitively at the head of the input,
returning the matched source characters and the remainder. -/
def matchCI : List Char → List Char → Option (List Char × List Char)
  | [], cs => some ([], cs)
  | _ :: _, [] => none
  | p :: ps, c :: cs =>
    if eqCI p c then
      match matchCI ps cs with
      | some (m, r) => some (c :: m, r)
      | none => none
    else none

/-- Split on a separator character (`String.prototype.split` with a
one-character separator). -/
def splitCh (sep : Char) : List Char → List (List Char)
  | [] => [[]]
  | c :: t =>
    if c = sep then [] :: splitCh sep t
    else
      match splitCh sep t with
      | h :: r => (c :: h) :: r
      | [] => [[c]]

/-- Substring containment, case-insensitive (`content.toLowerCase().includes(s)`
with `s` already lower-case). -/
def containsCI (pat : List Char) : List Char → Bool
  | [] => pat.isEmpty
  | c :: t => (matchCI pat (c :: t)).isSome || containsCI pat t

end JsStr

namespace Crawl

open JsStr

/-- JSON-like values as they flow through the crawl route: structured
extraction results, metadata fields and heuristic field values.
JavaScript numbers are idealised as exact rationals. -/
inductive CrawlVal where
  | str (s : String)
  | num (q : ℚ)
  | bool (b : Bool)
  | arr (xs : List CrawlVal)
  | obj (kvs : List (String × CrawlVal))
  | null

/-- A structured record (`Record<string, unknown>`), as an insertion-ordered
association list. -/
abbrev CRec := List (String × CrawlVal)

/-- Exactly `n` digits (`\d{n}`). -/
def takeDigits : Nat → List Char → Option (List Char × List Char)
  | 0, cs => some ([], cs)
  | n + 1, c :: cs =>
    if isDigitCh c then (takeDigits n cs).map fun r => (c :: r.1, r.2) else none
  | _ + 1, [] => none

/-- `\d{1,2}` greedy with backtracking: the continuation is tried with two
digits first, then with one. -/
def take12 (cs : List Char) (k : List Char → List Char → Option (List Char)) :
    Option (List Char) :=
  match cs with
  | c1 :: c2 :: t =>
    if isDigitCh c1 then
      if isDigitCh c2 then
        match k [c1, c2] t with
        | some r => some r
        | none => k [c1] (c2 :: t)
      else k [c1] (c2 :: t)
    else none
  | [c1] => if isDigitCh c1 then k [c1] [] else none
  | [] => none

def fullMonths : List String :=
  ["January", "February", "March", "April", "May", "June", "July",
   "August", "September", "October", "November", "December"]

def abbrevMonths : List String :=
  ["Jan", "Feb", "Mar", "Apr", "May", "Jun", "Jul", "Aug", "Sep", "Oct",
   "Nov", "Dec"]

/-- Try each alternative of a month alternation, in order, case-insensitively.
Returns the matched source text and the remainder. -/
def monthAt : List String → List Char → Option (List Char × List Char)
  | [], _ => none
  | m :: rest, cs =>
    match matchCI m.toList cs with
    | some r => some r
    | none => monthAt rest cs

/-- `\s+\d{4}`: a nonempty whitespace run followed by four digits (the
character classes are disjoint, so greediness needs no backtracking). -/
def wsThen4 (cs : List Char) : Bool :=
  match cs with
  | c :: t => isWs c && (takeDigits 4 (t.dropWhile isWs)).isSome
  | [] => false

/-- The tail `\s+\d{1,2},?\s+\d{4}` of the month-first date patterns. -/
def mdTailAt (cs : List Char) : Bool :=
  match cs with
  | c :: t =>
    isWs c &&
      (take12 (t.dropWhile isWs) fun _ r2 =>
        match r2 with
        | ',' :: r3 => if wsThen4 r3 then some [] else none
        | r3 => if wsThen4 r3 then some [] else none).isSome
  | [] => false

/-- `(\d{4}-\d{2}-\d{2})` anchored at the current position; the capture is the
whole match. -/
def dateIsoAt (cs : List Char) : Option (List Char) :=
  match takeDigits 4 cs with
  | some (a, r1) =>
    match r1 with
    | '-' :: r2 =>
      match takeDigits 2 r2 with
      | some (b, r3) =>
        match r3 with
        | '-' :: r4 => (takeDigits 2 r4).map fun p => a ++ '-' :: b ++ '-' :: p.1
        | _ => none
      | none => none
    | _ => none
  | none => none

/-- `(\d{1,2}\/\d{1,2}\/\d{4})` anchored at the current position. -/
def dateSlashAt (cs : List Char) : Option (List Char) :=
  take12 cs fun a r1 =>
    match r1 with
    | '/' :: r2 =>
      take12 r2 fun b r3 =>
        match r3 with
        | '/' :: r4 => (takeDigits 4 r4).map fun p => a ++ '/' :: b ++ '/' :: p.1
        | _ => none
    | _ => none

/-- `(January|…|December)\s+\d{1,2},?\s+\d{4}` anchored here.  The capture
group surrounds only the month alternation, as in the source. -/
def dateFullMonthAt (cs : List Char) : Option (List Char) :=
  match monthAt fullMonths cs with
  | some (m, r) => if mdTailAt r then some m else none
  | none => none

/-- `(\d{1,2}\s+(Jan|…|Dec)\s+\d{4})` anchored here; the outer capture is the
whole match. -/
def dateDayFirstAt (cs : List Char) : Option (List Char) :=
  take12 cs fun a r1 =>
    match r1 with
    | c :: t =>
      if isWs c then
        let w := (c :: t).takeWhile isWs
        let r2 := (c :: t).dropWhile isWs
        match monthAt abbrevMonths r2 with
        | some (m, r3) =>
          match r3 with
          | c2 :: t2 =>
            if isWs c2 then
              let w2 := (c2 :: t2).takeWhile isWs
              let r4 := (c2 :: t2).dropWhile isWs
              (takeDigits 4 r4).map fun p => a ++ w ++ m ++ w2 ++ p.1
            else none
          | [] => none
        | none => none
      else none
    | [] => none

/-- `(Jan|…|Dec)\s+\d{1,2},?\s+\d{4}` anchored here; the capture group
surrounds only the month abbreviation, as in the source. -/
def dateAbbrevMonthAt (cs : List Char) : Option (List Char) :=
  match monthAt abbrevMonths cs with
  | some (m, r) => if mdTailAt r then some m else none
  | none => none

/-- Leftmost match: try the anchored matcher at every position, left to
right (`String.prototype.match` without the `g` flag). -/
def scanFirst (f : List Char → Option (List Char)) : List Char → Option (List Char)
  | [] => none
  | c :: t =>
    match f (c :: t) with
    | some r => some r
    | none => scanFirst f t

/-- `extractDateFromMarkdown`: the five date patterns are tried in source
order over the whole string; the first pattern with a match returns its first
capture group; otherwise the empty string. -/
def extractDateFromMarkdown (markdown : String) : String :=
  let cs := markdown.toList
  match scanFirst dateIsoAt cs with
  | some m => String.mk m
  | none =>
    match scanFirst dateSlashAt cs with
    | some m => String.mk m
    | none =>
      match scanFirst dateFullMonthAt cs with
      | some m => String.mk m
      | none =>
        match scanFirst dateDayFirstAt cs with
        | some m => String.mk m
        | none =>
          match scanFirst dateAbbrevMonthAt cs with
          | some m => String.mk m
          | none => ""

/-- The suffixes of the string that start a line: the whole string and the
suffix after every newline (the positions where `^` matches under the `m`
flag). -/
def lineStarts (cs : List Char) : List (List Char) :=
  cs :: lineStartsGo cs
where
  lineStartsGo : List Char → List (List Char)
    | [] => []
    | '\n' :: t => t :: lineStartsGo t
    | _ :: t => lineStartsGo t

/-- Backtracking tail of `\s+(.+)` when the greedy whitespace run reaches the
end of the string: shrink the run from the right until `.` can match, and
capture greedily up to the end of the line. -/
def dotFrom : List Char → Option (List Char)
  | [] => none
  | c :: t =>
    match dotFrom t with
    | some cap => some cap
    | none =>
      if c ≠ '\n' then some ((c :: t).takeWhile (· ≠ '\n')) else none

/-- `\s+(.+)$` after a heading marker: a nonempty whitespace run (greedy, may
span newlines, backtracking when needed) followed by the rest of a line. -/
def headingTail (t : List Char) : Option (List Char) :=
  match t with
  | c :: t' =>
    if isWs c then
      let rest := t'.dropWhile isWs
      if rest.isEmpty then dotFrom (t'.takeWhile isWs)
      else some (rest.takeWhile (· ≠ '\n'))
    else none
  | [] => none

/-- `^#\s+(.+)$` anchored at a line start. -/
def h1At (cs : List Char) : Option (List Char) :=
  match cs with
  | '#' :: t => headingTail t
  | _ => none

/-- `^##\s+(.+)$` anchored at a line start. -/
def h2At (cs : List Char) : Option (List Char) :=
  match cs with
  | '#' :: '#' :: t => headingTail t
  | _ => none

/-- Leftmost multiline match: try the anchored matcher at every line start in
order. -/
def scanLines (f : List Char → Option (List Char)) (cs : List Char) :
    Option (List Char) :=
  scanLinesGo (lineStarts cs)
where
  scanLinesGo : List (List Char) → Option (List Char)
    | [] => none
    | p :: rest =>
      match f p with
      | some r => some r
      | none => scanLinesGo rest

/-- `extractTitleFromMarkdown`: first `#` heading, else first `##` heading,
else the first line (trimmed; empty string for empty input). -/
def extractTitleFromMarkdown (markdown : String) : String :=
  let cs := markdown.toList
  match scanLines h1At cs with
  | some cap => String.mk (trimL cap)
  | none =>
    match scanLines h2At cs with
    | some cap => String.mk (trimL cap)
    | none =>
      let firstLine := (splitCh '\n' cs).headD []
      if firstLine.isEmpty then "" else String.mk (trimL firstLine)

def digitsToNat (ds : List Char) : Nat :=
  ds.foldl (fun acc c => acc * 10 + (c.toNat - 48)) 0

/-- `parseFloat`, idealised over exact rationals: leading whitespace, optional
sign, decimal digits with optional fraction and exponent; `none` models `NaN`
(no parsable prefix).  `Infinity` literals are outside the number model. -/
def parseFloatQ (cs0 : List Char) : Option ℚ :=
  let cs := cs0.dropWhile isWs
  let sgnCs : ℚ × List Char :=
    match cs with
    | '-' :: t => (-1, t)
    | '+' :: t => (1, t)
    | t => (1, t)
  let sgn := sgnCs.1
  let cs1 := sgnCs.2
  let intDs := cs1.takeWhile isDigitCh
  let cs2 := cs1.dropWhile isDigitCh
  let fracDs : List Char :=
    match cs2 with
    | '.' :: t => t.takeWhile isDigitCh
    | _ => []
  let cs3 : List Char :=
    match cs2 with
    | '.' :: t => t.dropWhile isDigitCh
    | t => t
  if intDs.isEmpty && fracDs.isEmpty then none
  else
    let mantissa : ℚ :=
      (digitsToNat intDs : ℚ) + (digitsToNat fracDs : ℚ) / ((10 : ℚ) ^ fracDs.length)
    let expPart : ℚ :=
      match cs3 with
      | 'e' :: '-' :: t =>
        let eds := t.takeWhile isDigitCh
        if eds.isEmpty then 1 else ((10 : ℚ) ^ digitsToNat eds)⁻¹
      | 'e' :: '+' :: t =>
        let eds := t.takeWhile isDigitCh
        if eds.isEmpty then 1 else (10 : ℚ) ^ digitsToNat eds
      | 'e' :: t =>
        let eds := t.takeWhile isDigitCh
        if eds.isEmpty then 1 else (10 : ℚ) ^ digitsToNat eds
      | 'E' :: '-' :: t =>
        let eds := t.takeWhile isDigitCh
        if eds.isEmpty then 1 else ((10 : ℚ) ^ digitsToNat eds)⁻¹
      | 'E' :: '+' :: t =>
        let eds := t.takeWhile isDigitCh
        if eds.isEmpty then 1 else (10 : ℚ) ^ digitsToNat eds
      | 'E' :: t =>
        let eds := t.takeWhile isDigitCh
        if eds.isEmpty then 1 else (10 : ℚ) ^ digitsToNat eds
      | _ => 1
    some (sgn * mantissa * expPart)

/-- The `[:\s]` character class of the generic field regex. -/
def colonWs (c : Char) : Bool := c = ':' || isWs c

/-- `<fieldName>[:\s]+(.+)` (case-insensitive) anchored at the current
position; the capture is the rest of the line after the separator run. -/
def fieldAt (fname : List Char) (cs : List Char) : Option (List Char) :=
  match matchCI fname cs with
  | some (_, r) =>
    match r with
    | c :: t =>
      if colonWs c then
        let rest := t.dropWhile colonWs
        if rest.isEmpty then dotFrom (t.takeWhile colonWs)
        else some (rest.takeWhile (· ≠ '\n'))
      else none
    | [] => none
  | none => none

/-- `extractFieldFromMarkdown`: same-line regex search for the field name,
then coercion of the captured value per the declared field type. -/
def extractFieldFromMarkdown (markdown fieldName fieldType : String) : CrawlVal :=
  match scanFirst (fieldAt fieldName.toList) markdown.toList with
  | some cap =>
    let value := String.mk (trimL cap)
    if fieldType = "number" then
      match parseFloatQ value.toList with
      | some q => .num q
      | none => .null
    else if fieldType = "boolean" then
      .bool (toLowerL value.toList = "true".toList || toLowerL value.toList = "yes".toList)
    else if fieldType = "array" then
      .arr ((splitCh ',' value.toList).map fun p => .str (String.mk (trimL p)))
    else .str value
  | none => if fieldType = "array" then .arr [] else .str ""

/-- Plain (case-sensitive) substring containment
(`String.prototype.includes`). -/
def containsSub (pat : List Char) : List Char → Bool
  | [] => pat.isEmpty
  | c :: t => pat.isPrefixOf (c :: t) || containsSub pat t

/-- Existence of a match anywhere in the string (`content.match(re)` returning
a nonempty result). -/
def scanAny (f : List Char → Bool) : List Char → Bool
  | [] => false
  | c :: t => f (c :: t) || scanAny f t

def isDigComma (c : Char) : Bool := isDigitCh c || c = ','

/-- `\$[\d,]+\.?\d*` anchored here (existence only needs the first two
characters, the rest of the pattern can match empty). -/
def dollarPriceAt : List Char → Bool
  | '$' :: c :: _ => isDigComma c
  | _ => false

/-- `price[:\s]*\$?[\d,]+\.?\d*` (case-insensitive) anchored here. -/
def pricePrefixAt (cs : List Char) : Bool :=
  match matchCI "price".toList cs with
  | some (_, r) =>
    match r.dropWhile colonWs with
    | '$' :: c :: _ => isDigComma c
    | c :: _ => isDigComma c
    | [] => false
  | none => false

/-- `<h[1-3][^>]*>([^<]+)<\/h[1-3]>` (case-insensitive) anchored here. -/
def hTagAt : List Char → Bool
  | '<' :: h :: d :: t =>
    eqCI 'h' h && (d = '1' || d = '2' || d = '3') &&
      (match t.dropWhile (· ≠ '>') with
       | '>' :: r1 =>
         !(r1.takeWhile (· ≠ '<')).isEmpty &&
           (match r1.dropWhile (· ≠ '<') with
            | '<' :: '/' :: h2 :: d2 :: '>' :: _ =>
              eqCI 'h' h2 && (d2 = '1' || d2 = '2' || d2 = '3')
            | _ => false)
       | _ => false)
  | _ => false

/-- `<p[^>]*>([^<]{50,})<\/p>` (case-insensitive) anchored here. -/
def pTagAt : List Char → Bool
  | '<' :: p :: t =>
    eqCI 'p' p &&
      (match (p :: t).dropWhile (· ≠ '>') with
       | '>' :: r1 =>
         (r1.takeWhile (· ≠ '<')).length ≥ 50 &&
           (match r1.dropWhile (· ≠ '<') with
            | '<' :: '/' :: p2 :: '>' :: _ => eqCI 'p' p2
            | _ => false)
       | _ => false)
  | _ => false

/-- The `[^>]*src="([^"]+)"` part of the `<img>` pattern: scan forward over
non-`>` characters looking for `src="`, then a nonempty quoted value. -/
def imgSrcSearch : List Char → Bool
  | [] => false
  | c :: t =>
    (match matchCI "src=\"".toList (c :: t) with
     | some (_, r) =>
       match r with
       | x :: _ => x ≠ '"' && (r.dropWhile (· ≠ '"')).headD ' ' = '"'
       | [] => false
     | none => false) ||
    (c ≠ '>' && imgSrcSearch t)

/-- `<img[^>]*src="([^"]+)"` (case-insensitive) anchored here. -/
def imgTagAt (cs : List Char) : Bool :=
  match matchCI "<img".toList cs with
  | some (_, r) => imgSrcSearch r
  | none => false

/-- `\!\[([^\]]*)\]\(([^)]+)\)` anchored here. -/
def mdImgAt : List Char → Bool
  | '!' :: '[' :: t =>
    (match t.dropWhile (· ≠ ']') with
     | ']' :: '(' :: r2 =>
       (match r2 with
        | c :: _ => c ≠ ')' && (r2.dropWhile (· ≠ ')')).headD ' ' = ')'
        | [] => false)
     | _ => false)
  | _ => false

/-- `[:\s]*([^,\n]+)` after a label, with the backtracking the overlap of the
two classes makes observable. -/
def labelTail1 : List Char → Bool
  | [] => false
  | c :: t => (c ≠ ',' && c ≠ '\n') || (colonWs c && labelTail1 t)

/-- `category[:\s]*([^,\n]+)` (case-insensitive) anchored here. -/
def categoryAt (cs : List Char) : Bool :=
  match matchCI "category".toList cs with
  | some (_, r) => labelTail1 r
  | none => false

/-- `tags?[:\s]*([^,\n]+)` (case-insensitive) anchored here. -/
def tagsAt (cs : List Char) : Bool :=
  (match matchCI "tags".toList cs with
   | some (_, r) => labelTail1 r
   | none => false) ||
  (match matchCI "tag".toList cs with
   | some (_, r) => labelTail1 r
   | none => false)

/-- `phone[:\s]*([^,\n]+)` (case-insensitive) anchored here. -/
def phoneAt (cs : List Char) : Bool :=
  match matchCI "phone".toList cs with
  | some (_, r) => labelTail1 r
  | none => false

def notCommaWs (c : Char) : Bool := !(c = ',' || isWs c)

/-- `[^,\s\n]+@[^,\s\n]+`: within the maximal class run there is an `@` with
at least one class character on both sides. -/
def emailLocal (cs : List Char) : Bool :=
  (((cs.takeWhile notCommaWs).drop 1).dropLast).contains '@'

/-- `[:\s]*` then the e-mail body, with backtracking over the separator run. -/
def emailTail : List Char → Bool
  | [] => false
  | c :: t => emailLocal (c :: t) || (colonWs c && emailTail t)

/-- `email[:\s]*([^,\s\n]+@[^,\s\n]+)` (case-insensitive) anchored here. -/
def emailAt (cs : List Char) : Bool :=
  match matchCI "email".toList cs with
  | some (_, r) => emailTail r
  | none => false

/-- `[:\s]*([^,\n]{10,})` after the `address` label. -/
def addressTail : List Char → Bool
  | [] => false
  | c :: t =>
    ((c :: t).takeWhile fun x => x ≠ ',' && x ≠ '\n').length ≥ 10 ||
      (colonWs c && addressTail t)

/-- `address[:\s]*([^,\n]{10,})` (case-insensitive) anchored here. -/
def addressAt (cs : List Char) : Bool :=
  match matchCI "address".toList cs with
  | some (_, r) => addressTail r
  | none => false

/-- `rating[:\s]*(\d+\.?\d*)` (case-insensitive) anchored here. -/
def ratingAt (cs : List Char) : Bool :=
  match matchCI "rating".toList cs with
  | some (_, r) => isDigitCh ((r.dropWhile colonWs).headD ' ')
  | none => false

/-- `\s*stars?` (case-insensitive) anchored here. -/
def starsTail (cs : List Char) : Bool :=
  (matchCI "star".toList (cs.dropWhile isWs)).isSome

/-- `(\d+\.?\d*)\s*stars?` (case-insensitive) anchored here. -/
def starsAt (cs : List Char) : Bool :=
  match cs with
  | c :: _ =>
    isDigitCh c &&
      (let r1 := cs.dropWhile isDigitCh
       starsTail r1 ||
         (match r1 with
          | '.' :: t => starsTail (t.dropWhile isDigitCh)
          | _ => false))
  | [] => false

/-- `in\s+stock` (case-insensitive) anchored here. -/
def inStockAt (cs : List Char) : Bool :=
  match matchCI "in".toList cs with
  | some (_, r) =>
    match r with
    | c :: t => isWs c && (matchCI "stock".toList (t.dropWhile isWs)).isSome
    | [] => false
  | none => false

/-- `out\s+of\s+stock` (case-insensitive) anchored here. -/
def outStockAt (cs : List Char) : Bool :=
  match matchCI "out".toList cs with
  | some (_, r) =>
    match r with
    | c :: t =>
      isWs c &&
        (match matchCI "of".toList (t.dropWhile isWs) with
         | some (_, r2) =>
           match r2 with
           | c2 :: t2 => isWs c2 && (matchCI "stock".toList (t2.dropWhile isWs)).isSome
           | [] => false
         | none => false)
    | [] => false
  | none => false

/-- `author[:\s]*([^,\n]+)` (case-insensitive) anchored here. -/
def authorAt (cs : List Char) : Bool :=
  match matchCI "author".toList cs with
  | some (_, r) => labelTail1 r
  | none => false

def isUpperCh (c : Char) : Bool := 'A' ≤ c && c ≤ 'Z'
def isLowerCh (c : Char) : Bool := 'a' ≤ c && c ≤ 'z'

/-- `by\s+([A-Z][a-z]+\s+[A-Z][a-z]+)` (case-sensitive) anchored here. -/
def byAuthorAt : List Char → Bool
  | 'b' :: 'y' :: c :: t =>
    isWs c &&
      (match (c :: t).dropWhile isWs with
       | u :: r1 =>
         isUpperCh u && !(r1.takeWhile isLowerCh).isEmpty &&
           (match r1.dropWhile isLowerCh with
            | w :: _ =>
              isWs w &&
                (match (r1.dropWhile isLowerCh).dropWhile isWs with
                 | u2 :: r3 => isUpperCh u2 && !(r3.takeWhile isLowerCh).isEmpty
                 | [] => false)
            | [] => false)
       | [] => false)
  | _ => false

def isWordCh (c : Char) : Bool :=
  isUpperCh c || isLowerCh c || isDigitCh c || c = '-' || c = '_'

/-- `id[:\s]*([A-Za-z0-9-_]+)` (case-insensitive) anchored here. -/
def idLabelAt (cs : List Char) : Bool :=
  match matchCI "id".toList cs with
  | some (_, r) => isWordCh ((r.dropWhile colonWs).headD ' ')
  | none => false

/-- `sku[:\s]*([A-Za-z0-9-_]+)` (case-insensitive) anchored here. -/
def skuLabelAt (cs : List Char) : Bool :=
  match matchCI "sku".toList cs with
  | some (_, r) => isWordCh ((r.dropWhile colonWs).headD ' ')
  | none => false

structure SchemaProperty where
  type : String
  description : Option String
  deriving Repr, DecidableEq

structure Schema where
  type : String
  properties : List (String × SchemaProperty)
  deriving Repr, DecidableEq

/-- JavaScript object property assignment `o[k] = v`: the value is replaced
but a pre-existing key keeps its insertion position; a new key is appended. -/
def assocSet : List (String × SchemaProperty) → String → SchemaProperty →
    List (String × SchemaProperty)
  | [], k, v => [(k, v)]
  | (k', v') :: t, k, v =>
    if k' = k then (k, v) :: t else (k', v') :: assocSet t k v

def assocHas (l : List (String × SchemaProperty)) (k : String) : Bool :=
  l.any fun p => p.1 = k

def addIfAbsent (l : List (String × SchemaProperty)) (k : String)
    (v : SchemaProperty) : List (String × SchemaProperty) :=
  if assocHas l k then l else assocSet l k v

/-- The ordered pattern table of `inferSchemaFromContent`: an existence
matcher, the field name, the field type and the description. -/
def inferPatterns : List ((List Char → Bool) × String × String × String) :=
  [(scanAny dollarPriceAt, "price", "string", "Product price"),
   (scanAny pricePrefixAt, "price", "string", "Price information"),
   (scanAny hTagAt, "title", "string", "Main title or heading"),
   (scanAny pTagAt, "description", "string", "Content description"),
   (scanAny imgTagAt, "image_url", "string", "Image URL"),
   (scanAny mdImgAt, "image_url", "string", "Image URL from markdown"),
   (scanAny categoryAt, "category", "string", "Product or content category"),
   (scanAny tagsAt, "tags", "array", "Content tags"),
   (scanAny phoneAt, "phone", "string", "Phone number"),
   (scanAny emailAt, "email", "string", "Email address"),
   (scanAny addressAt, "address", "string", "Physical address"),
   (scanAny (fun cs => (dateSlashAt cs).isSome), "date", "string", "Date information"),
   (scanAny (fun cs => (dateIsoAt cs).isSome), "date", "string", "Date in ISO format"),
   (scanAny ratingAt, "rating", "number", "Rating score"),
   (scanAny starsAt, "rating", "number", "Star rating"),
   (scanAny inStockAt, "availability", "string", "Stock availability"),
   (scanAny outStockAt, "availability", "string", "Stock availability"),
   (scanAny authorAt, "author", "string", "Content author"),
   (scanAny byAuthorAt, "author", "string", "Author name"),
   (scanAny idLabelAt, "id", "string", "Unique identifier"),
   (scanAny skuLabelAt, "sku", "string", "Product SKU")]

/-- `inferSchemaFromContent`: run the pattern table over
`markdown + ' ' + html`, add the unconditional `title`/`description` fields,
then the three content-type heuristic groups. -/
def inferSchemaFromContent (markdown html : Option String) : Schema :=
  let content := (markdown.getD "") ++ " " ++ (html.getD "")
  let cs := content.toList
  let props0 := inferPatterns.foldl
    (fun acc p => if p.1 cs then assocSet acc p.2.1 ⟨p.2.2.1, some p.2.2.2⟩ else acc) []
  let props1 := addIfAbsent props0 "title" ⟨"string", some "Main title or name"⟩
  let props2 := addIfAbsent props1 "description"
    ⟨"string", some "Main content or description"⟩
  let lower := toLowerL cs
  let props3 :=
    if containsSub "product".toList lower || assocHas props2 "price" then
      let a := addIfAbsent props2 "price" ⟨"string", some "Product price"⟩
      let b := addIfAbsent a "category" ⟨"string", some "Product category"⟩
      addIfAbsent b "availability" ⟨"string", some "Stock status"⟩
    else props2
  let props4 :=
    if containsSub "article".toList lower || containsSub "blog".toList lower then
      let a := addIfAbsent props3 "author" ⟨"string", some "Article author"⟩
      let b := addIfAbsent a "date" ⟨"string", some "Publication date"⟩
      addIfAbsent b "tags" ⟨"array", some "Article tags"⟩
    else props3
  let props5 :=
    if containsSub "contact".toList lower || assocHas props4 "phone" ||
        assocHas props4 "email" then
      let a := addIfAbsent props4 "name" ⟨"string", some "Business or person name"⟩
      let b := addIfAbsent a "phone" ⟨"string", some "Phone number"⟩
      let c := addIfAbsent b "email" ⟨"string", some "Email address"⟩
      addIfAbsent c "address" ⟨"string", some "Physical address"⟩
    else props4
  ⟨"object", props5⟩

/-- `getDefaultSchema`. -/
def getDefaultSchema : Schema :=
  ⟨"object",
   [("title", ⟨"string", some "Main title or heading"⟩),
    ("description", ⟨"string", some "Content description"⟩),
    ("url", ⟨"string", some "Source URL"⟩)]⟩

/-- The metadata fields the route reads from a page result; the external
fetcher supplies them as strings. -/
structure Metadata where
  title : Option String
  publishedTime : Option String
  sourceURL : Option String

/-- One page result as delivered by the fetcher (`PageResult` at the service
boundary): structured extraction, markdown, metadata and passthrough data. -/
structure PageResult where
  json : Option CRec
  extract : Option CRec
  markdown : Option String
  metadata : Option Metadata
  url : Option String
  links : Option (List String)
  screenshot : Option String

/-- The value of a resolved `scrapeUrl` call in the fallback loop (the SDK
result object the route inspects). -/
structure ScrapeRet where
  success : Bool
  error : Option String
  url : Option String
  data : Option PageResult
  json : Option CRec
  extract : Option CRec
  markdown : Option String
  metadata : Option Metadata
  links : Option (List String)
  screenshot : Option String

/-- Outcome of one `scrapeUrl` call: either the promise rejected (`throw`) or
it resolved to a result object. -/
inductive ScrapeOut where
  | threw (msg : Option String)
  | ret (r : ScrapeRet)

/-- Outcome of the `batchScrapeUrls` call: rejected, resolved with
`success:false`, or resolved successfully with page data. -/
inductive BatchOutcome where
  | threw
  | notSuccess (error : Option String)
  | ok (data : List PageResult) (creditsUsed : Option Nat)

/-- Outcome of the sample scrape used for auto-inference. -/
inductive SampleOut where
  | ok (markdown : Option String) (html : Option String)
  | fail

/-- The external page fetcher, abstracted as an oracle: the scrape options the
route passes are part of the oracle's behaviour. -/
structure Fetcher where
  sampleScrape : SampleOut
  batch : BatchOutcome
  scrapeOne : String → ScrapeOut

/-- The parsed request body of the crawl `POST` with its defaulted fields. -/
structure CrawlBody where
  url : String
  schema : Option Schema
  autoInfer : Bool
  includeRaw : Bool
  selectedUrls : List String

/-- One entry of the `rawData` array built when `includeRaw` is requested. -/
structure RawItem where
  extractedJson : Option CRec
  metadata : Option Metadata
  url : String
  markdown : String
  links : List String
  screenshot : Option String

/-- The success payload of the crawl `POST`. -/
structure SuccessPayload where
  data : List CRec
  totalPages : Nat
  completed : Nat
  inferredSchema : Option Schema
  strategy : String
  creditsUsed : Nat
  rawData : Option (List RawItem)

/-- A `NextResponse.json` reply: a success payload, or an error body with its
HTTP status. -/
inductive PostResult where
  | ok (p : SuccessPayload)
  | err (status : Nat) (msg : String)

/-- The entry pushed into `fallbackResults` when an individual `scrapeUrl`
call throws. -/
def fallbackErrEntry (u : String) (msg : Option String) : ScrapeRet :=
  { success := false
    error := some (msg.getD "Scrape failed")
    url := some u
    data := none
    json := none
    extract := none
    markdown := none
    metadata := some ⟨none, none, some u⟩
    links := none
    screenshot := none }

/-- JavaScript truthiness for an optional string (`undefined` and `""` are
falsy). -/
def truthyStr : Option String → Option String
  | some s => if s = "" then none else some s
  | none => none

/-- `String((url) || metadata?.sourceURL || '')` in the fallback conversion. -/
def fallbackUrl (r : ScrapeRet) : String :=
  match truthyStr r.url with
  | some u => u
  | none => (truthyStr (r.metadata.bind (·.sourceURL))).getD ""

/-- Conversion of a successful fallback result into the batch page format. -/
def convEntry (r : ScrapeRet) : PageResult :=
  match r.data with
  | some p => p
  | none =>
    { json := r.json
      extract := r.extract
      markdown := some (r.markdown.getD "")
      metadata := some (r.metadata.getD ⟨none, none, none⟩)
      url := some (fallbackUrl r)
      links := some (r.links.getD [])
      screenshot := r.screenshot }

/-- The aggregate the route stores in `crawlResult` after the batch phase
(bulk result, or the converted sequential fallback). -/
structure CrawlResultM where
  data : List PageResult
  total : Nat
  completed : Nat
  creditsUsed : Nat

/-- The batch phase: the bulk call, with the sequential per-URL fallback when
the bulk call throws or reports `success:false`. -/
def runBatchPhase (sel : List String) (f : Fetcher) : CrawlResultM :=
  match f.batch with
  | .ok d cu => ⟨d, sel.length, d.length, cu.getD d.length⟩
  | _ =>
    let frs := sel.map fun u =>
      match f.scrapeOne u with
      | .threw m => fallbackErrEntry u m
      | .ret r => r
    let succ := frs.filter (·.success)
    ⟨succ.map convEntry, sel.length, succ.length, succ.length⟩

/-- JavaScript object property assignment on an extracted record. -/
def recSet : CRec → String → CrawlVal → CRec
  | [], k, v => [(k, v)]
  | (k', v') :: t, k, v =>
    if k' = k then (k, v) :: t else (k', v') :: recSet t k v

/-- The markdown-heuristic branch of the extraction loop: every schema field
is derived from the page markdown/metadata with the per-field heuristics. -/
def heuristicRecord (fs : Schema) (page : PageResult) : CRec :=
  let md := page.markdown.getD ""
  fs.properties.foldl
    (fun acc kp =>
      let v : CrawlVal :=
        if kp.1 = "title" then
          .str ((truthyStr (page.metadata.bind (·.title))).getD
            (extractTitleFromMarkdown md))
        else if kp.1 = "date" then
          .str ((truthyStr (page.metadata.bind (·.publishedTime))).getD
            (extractDateFromMarkdown md))
        else if kp.1 = "content" then .str md
        else if kp.1 = "url" then
          .str ((truthyStr (page.metadata.bind (·.sourceURL))).getD
            ((truthyStr page.url).getD ""))
        else extractFieldFromMarkdown md kp.1 kp.2.type
      recSet acc kp.1 v)
    []

/-- The extraction loop body for one page: structured data (`json`, else
`extract`) is passed through unchanged; otherwise the markdown heuristics
run. -/
def extractOne (fs : Schema) (page : PageResult) : CRec :=
  match page.json with
  | some j => j
  | none =>
    match page.extract with
    | some e => e
    | none => heuristicRecord fs page

/-- `markdown.substring(0, 2000) + (longer ? '...' : '')` in the raw-data
echo. -/
def truncMd (md : Option String) : String :=
  let s := md.getD ""
  if s.length > 2000 then String.mk (s.toList.take 2000) ++ "..." else
    String.mk (s.toList.take 2000)

/-- One `rawData` entry. -/
def rawItem (page : PageResult) : RawItem :=
  { extractedJson := match page.json with
      | some j => some j
      | none => page.extract
    metadata := some (page.metadata.getD ⟨none, none, none⟩)
    url := (truthyStr page.url).getD
      ((truthyStr (page.metadata.bind (·.sourceURL))).getD "")
    markdown := truncMd page.markdown
    links := page.links.getD []
    screenshot := page.screenshot }

/-- `x || y` on numbers (`0` is falsy). -/
def jsOrNat (a b : Nat) : Nat := if a = 0 then b else a

/-- Schema resolution: the explicit request schema, or — when auto-inference
is requested without one — the inferred schema, falling back to the default
schema when the sample scrape fails. -/
def resolveSchema (body : CrawlBody) (f : Fetcher) : Option Schema :=
  if body.autoInfer && body.schema.isNone then
    some (match f.sampleScrape with
      | .ok md html => inferSchemaFromContent md html
      | .fail => getDefaultSchema)
  else body.schema

/-- The crawl `POST` handler.  The request body is already parsed; the
fetcher, and whether a usable API key is configured, are parameters. -/
def POST (body : CrawlBody) (f : Fetcher) (apiKeyOk : Bool) : PostResult :=
  if body.url = "" then .err 400 "URL is required"
  else if !apiKeyOk then
    .err 500 "Firecrawl API key not configured. Please check server configuration."
  else
    match resolveSchema body f with
    | none => .err 400 "Schema is required or auto-inference failed"
    | some fs =>
      if body.selectedUrls.isEmpty then
        .err 400 "No URLs selected for scraping"
      else
        let crawlResult := runBatchPhase body.selectedUrls f
        let extractedData := crawlResult.data.map (extractOne fs)
        .ok
          { data := extractedData
            totalPages := jsOrNat crawlResult.total extractedData.length
            completed := jsOrNat crawlResult.completed extractedData.length
            inferredSchema := if body.autoInfer then some fs else none
            strategy := "mapCrawl"
            creditsUsed := body.selectedUrls.length + 2
            rawData := if body.includeRaw then
                some (crawlResult.data.map rawItem)
              else none }

/-- Whether a `scrapeUrl` outcome counts as a success in the fallback loop. -/
def scrapeOk : ScrapeOut → Bool
  | .ret r => r.success
  | .threw _ => false

/-- Whether the bulk call failed (threw, or resolved with `success:false`). -/
def batchFailed : BatchOutcome → Bool
  | .ok _ _ => false
  | _ => true

/-- The success payload `POST` builds once all the guards have passed. -/
def mkPayload (body : CrawlBody) (f : Fetcher) (fs : Schema) : SuccessPayload :=
  let crawlResult := runBatchPhase body.selectedUrls f
  let extractedData := crawlResult.data.map (extractOne fs)
  { data := extractedData
    totalPages := jsOrNat crawlResult.total extractedData.length
    completed := jsOrNat crawlResult.completed extractedData.length
    inferredSchema := if body.autoInfer then some fs else none
    strategy := "mapCrawl"
    creditsUsed := body.selectedUrls.length + 2
    rawData := if body.includeRaw then some (crawlResult.data.map rawItem) else none }

theorem post_ok_shape (body : CrawlBody) (f : Fetcher) (hu : body.url ≠ "")
    (fs : Schema) (hfs : resolveSchema body f = some fs)
    (hsel : body.selectedUrls ≠ []) :
    POST body f true = .ok (mkPayload body f fs) := by
  have hne : body.selectedUrls.isEmpty = false := by
    cases h : body.selectedUrls with
    | nil => exact absurd h hsel
    | cons a t => rfl
  unfold POST
  rw [if_neg hu, if_neg (by decide : ¬((!true : Bool) = true)), hfs]
  simp only [hne]
  rfl

theorem post_ok_inv (body : CrawlBody) (f : Fetcher) (p : SuccessPayload)
    (hp : POST body f true = .ok p) :
    ∃ fs, resolveSchema body f = some fs ∧ p = mkPayload body f fs := by
  unfold POST at hp
  by_cases hu : body.url = ""
  · rw [if_pos hu] at hp; exact absurd hp (by simp)
  · rw [if_neg hu, if_neg (by decide : ¬((!true : Bool) = true))] at hp
    cases hres : resolveSchema body f with
    | none => rw [hres] at hp; exact absurd hp (by simp)
    | some fs =>
      rw [hres] at hp
      by_cases hne : body.selectedUrls.isEmpty
      · simp only [hne, if_true] at hp; exact absurd hp (by simp)
      · simp only [Bool.not_eq_true] at hne
        simp only [hne] at hp
        refine ⟨fs, rfl, ?_⟩
        cases hp
        rfl

theorem length_filter_map {α β : Type} (g : α → β) (p : β → Bool) :
    ∀ l : List α, ((l.map g).filter p).length = (l.filter fun a => p (g a)).length := by
  intro l
  induction l with
  | nil => rfl
  | cons a t ih =>
    by_cases h : p (g a)
    · simp [List.filter, h, ih]
    · simp [List.filter, h, ih]

/-- `runBatchPhase` in the fallback case: the page list and the completed
count both collapse to the successfully scraped URLs. -/
theorem runBatchPhase_fallback (sel : List String) (f : Fetcher)
    (hb : batchFailed f.batch = true) :
    (runBatchPhase sel f).data.length
        = (sel.filter fun u => scrapeOk (f.scrapeOne u)).length ∧
      (runBatchPhase sel f).completed
        = (sel.filter fun u => scrapeOk (f.scrapeOne u)).length := by
  have main : ∀ sel' : List String,
      ((sel'.map fun u => match f.scrapeOne u with
        | .threw m => fallbackErrEntry u m
        | .ret r => r).filter (·.success)).length
      = (sel'.filter fun u => scrapeOk (f.scrapeOne u)).length := by
    intro sel'
    induction sel' with
    | nil => rfl
    | cons a t ih =>
      simp only [List.map_cons, List.filter_cons]
      cases hs : f.scrapeOne a with
      | threw m => simpa [fallbackErrEntry, scrapeOk] using ih
      | ret r =>
        by_cases hr : r.success
        · simpa [scrapeOk, hr] using ih
        · simpa [scrapeOk, hr] using ih
  cases hfb : f.batch with
  | ok d cu => rw [hfb] at hb; exact absurd hb (by simp [batchFailed])
  | threw =>
    exact ⟨by simp only [runBatchPhase, hfb, List.length_map]; exact main sel,
           by simp only [runBatchPhase, hfb]; exact main sel⟩
  | notSuccess e =>
    exact ⟨by simp only [runBatchPhase, hfb, List.length_map]; exact main sel,
           by simp only [runBatchPhase, hfb]; exact main sel⟩

/-- A page result carrying structured extraction data. -/
def pageA : PageResult :=
  { json := some [("title", .str "A")], extract := none, markdown := some "# A",
    metadata := none, url := some "https://example.com/a", links := none,
    screenshot := none }

/-- A page result with no structured data (only markdown). -/
def pageB : PageResult :=
  { json := none, extract := none,
    markdown := some "# B\nauthor: Jane", metadata := none,
    url := some "https://example.com/b", links := none, screenshot := none }

/-- A resolved fallback scrape returning structured data. -/
def retOk (u : String) : ScrapeRet :=
  { success := true, error := none, url := some u, data := none,
    json := some [("title", CrawlVal.str u)], extract := none,
    markdown := some "", metadata := none, links := none, screenshot := none }

def exBody : CrawlBody :=
  { url := "https://example.com", schema := some getDefaultSchema,
    autoInfer := false, includeRaw := false,
    selectedUrls := ["https://example.com/a"] }

def exFetchOk : Fetcher :=
  { sampleScrape := .fail, batch := .ok [pageA] none,
    scrapeOne := fun _ => .threw none }

def exBodyEmpty : CrawlBody :=
  { url := "https://example.com", schema := some getDefaultSchema,
    autoInfer := false, includeRaw := false, selectedUrls := [] }

def exBody5 : CrawlBody :=
  { url := "https://example.com", schema := some getDefaultSchema,
    autoInfer := false, includeRaw := false,
    selectedUrls := ["u1", "u2", "u3", "u4", "u5"] }

def exFetchFall : Fetcher :=
  { sampleScrape := .fail, batch := .threw,
    scrapeOne := fun u =>
      if u = "u1" || u = "u3" || u = "u5" then .ret (retOk u) else .threw none }

def exFetchMix : Fetcher :=
  { sampleScrape := .fail, batch := .ok [pageA, pageB] none,
    scrapeOne := fun _ => .threw none }

end Crawl

/-- C1: for every crawl request, if `selectedUrls` is empty, or no schema is
resolvable (no explicit schema and auto-inference not requested — the only
way `finalSchema` stays undefined, since auto-inference always produces at
least the default schema), the `POST` handler replies with an HTTP 400
configuration error and no records. -/
theorem C1_crawl_config_error (body : Crawl.CrawlBody) (f : Crawl.Fetcher)
    (h : body.selectedUrls = [] ∨ (body.schema = none ∧ body.autoInfer = false)) :
    ∃ msg, Crawl.POST body f true = .err 400 msg := by
  unfold Crawl.POST
  by_cases hu : body.url = ""
  · exact ⟨_, by rw [if_pos hu]⟩
  · rw [if_neg hu, if_neg (by decide : ¬((!true : Bool) = true))]
    rcases h with hsel | ⟨hsch, hai⟩
    · cases hfs : Crawl.resolveSchema body f with
      | none =>
        exact ⟨"Schema is required or auto-inference failed", by simp [hfs]⟩
      | some fs =>
        exact ⟨"No URLs selected for scraping", by simp [hfs, hsel]⟩
    · have hnone : Crawl.resolveSchema body f = none := by
        unfold Crawl.resolveSchema
        simp [hsch, hai]
      exact ⟨"Schema is required or auto-inference failed", by simp [hnone]⟩

/-- C1 witness: a request with an empty selection is rejected with status
400. -/
theorem C1_crawl_config_error_witness :
    ∃ msg, Crawl.POST Crawl.exBodyEmpty Crawl.exFetchOk true = .err 400 msg :=
  C1_crawl_config_error Crawl.exBodyEmpty Crawl.exFetchOk (Or.inl rfl)

/-- C2: whenever the bulk batch fetch fails (throws or reports
`success:false`), the crawl degrades to sequential per-URL fetches; each
individual failure is recorded as a skip, the result contains exactly the
pages whose fetch succeeded, and `completed` equals that count — a single
URL's fetch failure never fails the whole crawl. -/
theorem C2_bulk_fallback (body : Crawl.CrawlBody) (f : Crawl.Fetcher)
    (hu : body.url ≠ "") (hs : (Crawl.resolveSchema body f).isSome = true)
    (hsel : body.selectedUrls ≠ [])
    (hb : Crawl.batchFailed f.batch = true) :
    ∃ p, Crawl.POST body f true = .ok p ∧
      p.data.length
        = (body.selectedUrls.filter fun u => Crawl.scrapeOk (f.scrapeOne u)).length ∧
      p.completed
        = (body.selectedUrls.filter fun u => Crawl.scrapeOk (f.scrapeOne u)).length := by
  obtain ⟨fs, hfs⟩ := Option.isSome_iff_exists.mp hs
  obtain ⟨hlen, hcomp⟩ := Crawl.runBatchPhase_fallback body.selectedUrls f hb
  refine ⟨Crawl.mkPayload body f fs, Crawl.post_ok_shape body f hu fs hfs hsel, ?_, ?_⟩
  · simpa [Crawl.mkPayload] using hlen
  · show Crawl.jsOrNat (Crawl.runBatchPhase body.selectedUrls f).completed _ = _
    rw [hcomp]
    unfold Crawl.jsOrNat
    by_cases h0 : (body.selectedUrls.filter fun u => Crawl.scrapeOk (f.scrapeOne u)).length = 0
    · simp [h0, List.length_map, hlen]
    · simp [h0]

/-- C2 witness: five selected URLs, a failing batch call, and three
succeeding individual fetches yield exactly three records with
`completed = 3`. -/
theorem C2_bulk_fallback_witness :
    ∃ p, Crawl.POST Crawl.exBody5 Crawl.exFetchFall true = .ok p ∧
      p.data.length = 3 ∧ p.completed = 3 := by
  obtain ⟨p, hpost, hlen, hcomp⟩ :=
    C2_bulk_fallback Crawl.exBody5 Crawl.exFetchFall (by decide) (by decide)
      (by decide) (by decide)
  refine ⟨p, hpost, ?_, ?_⟩
  · rw [hlen]; decide
  · rw [hcomp]; decide

/-- C3 counterexample: a concrete successful crawl (bulk path, one page)
whose reported `strategy` is neither `bulk` nor `bulk_with_fallback` — the
route always reports the constant string `mapCrawl`. -/
theorem C3_strategy_counterexample :
    ∃ p, Crawl.POST Crawl.exBody Crawl.exFetchOk true = .ok p ∧
      ¬(p.strategy = "bulk" ∨ p.strategy = "bulk_with_fallback") :=
  ⟨_, rfl, by decide⟩

/-- C3 (amended): every successful crawl invocation reports the constant
strategy value `mapCrawl`, regardless of which fetch path executed. -/
theorem C3_strategy_constant (body : Crawl.CrawlBody) (f : Crawl.Fetcher)
    (p : Crawl.SuccessPayload) (hp : Crawl.POST body f true = .ok p) :
    p.strategy = "mapCrawl" := by
  obtain ⟨fs, _, hpay⟩ := Crawl.post_ok_inv body f p hp
  rw [hpay]
  rfl

/-- C3 witness: the amended theorem applied to a concrete crawl. -/
theorem C3_strategy_constant_witness :
    ∃ p, Crawl.POST Crawl.exBody Crawl.exFetchOk true = .ok p ∧
      p.strategy = "mapCrawl" :=
  ⟨_, rfl, C3_strategy_constant Crawl.exBody Crawl.exFetchOk _ rfl⟩

/-- C9: every successful crawl invocation reports
`credits_used = len(selectedUrls) + 2`, independently of the fetch path taken
and of any credit figure the fetcher reported. -/
theorem C9_credits_used (body : Crawl.CrawlBody) (f : Crawl.Fetcher)
    (p : Crawl.SuccessPayload) (hp : Crawl.POST body f true = .ok p) :
    p.creditsUsed = body.selectedUrls.length + 2 := by
  obtain ⟨fs, _, hpay⟩ := Crawl.post_ok_inv body f p hp
  rw [hpay]
  rfl

/-- C9 witness: a concrete crawl of one URL reports three credits. -/
theorem C9_credits_used_witness :
    ∃ p, Crawl.POST Crawl.exBody Crawl.exFetchOk true = .ok p ∧
      p.creditsUsed = 1 + 2 :=
  ⟨_, rfl, C9_credits_used Crawl.exBody Crawl.exFetchOk _ rfl⟩

/-- C10: with an explicit schema, the records of a successful crawl are the
page results mapped through the extraction step, and that step passes a
structured `json` (else `extract`) object through unchanged; the markdown
per-field heuristics produce the record only when both are absent. -/
theorem C10_extraction_passthrough (body : Crawl.CrawlBody) (f : Crawl.Fetcher)
    (p : Crawl.SuccessPayload) (sch : Crawl.Schema)
    (hp : Crawl.POST body f true = .ok p) (hsch : body.schema = some sch) :
    p.data = (Crawl.runBatchPhase body.selectedUrls f).data.map (Crawl.extractOne sch) ∧
      ∀ page ∈ (Crawl.runBatchPhase body.selectedUrls f).data,
        (∀ j, page.json = some j → Crawl.extractOne sch page = j) ∧
        (page.json = none → ∀ e, page.extract = some e →
          Crawl.extractOne sch page = e) ∧
        (page.json = none → page.extract = none →
          Crawl.extractOne sch page = Crawl.heuristicRecord sch page) := by
  obtain ⟨fs, hres, hpay⟩ := Crawl.post_ok_inv body f p hp
  have hfs : sch = fs := by
    unfold Crawl.resolveSchema at hres
    rw [hsch] at hres
    simpa using hres
  subst hfs
  refine ⟨by rw [hpay]; rfl, ?_⟩
  intro page _
  refine ⟨?_, ?_, ?_⟩
  · intro j hj
    simp [Crawl.extractOne, hj]
  · intro hn e he
    simp [Crawl.extractOne, hn, he]
  · intro hn hen
    simp [Crawl.extractOne, hn, hen]

/-- C10 witness: a concrete crawl whose batch returns one page with
structured data and one without. -/
theorem C10_extraction_passthrough_witness :
    ∃ p, Crawl.POST Crawl.exBody Crawl.exFetchMix true = .ok p ∧
      (p.data
          = (Crawl.runBatchPhase Crawl.exBody.selectedUrls Crawl.exFetchMix).data.map
              (Crawl.extractOne Crawl.getDefaultSchema) ∧
        ∀ page ∈ (Crawl.runBatchPhase Crawl.exBody.selectedUrls Crawl.exFetchMix).data,
          (∀ j, page.json = some j →
            Crawl.extractOne Crawl.getDefaultSchema page = j) ∧
          (page.json = none → ∀ e, page.extract = some e →
            Crawl.extractOne Crawl.getDefaultSchema page = e) ∧
          (page.json = none → page.extract = none →
            Crawl.extractOne Crawl.getDefaultSchema page
              = Crawl.heuristicRecord Crawl.getDefaultSchema page)) :=
  ⟨_, rfl, C10_extraction_passthrough Crawl.exBody Crawl.exFetchMix _
    Crawl.getDefaultSchema rfl rfl⟩

/-- C4: evaluation of `extractDateFromMarkdown` at the claim's inputs.  The
ISO and no-match examples behave as specified, but on
`"Published Oct 21, 2024"` the code returns only `"Oct"`: the third and fifth
date patterns place the capture group around the month alternation alone
(unlike their siblings, which wrap the whole pattern), and the function
returns `match[1]`. -/
theorem C4_date_extraction_eval :
    Crawl.extractDateFromMarkdown "Published Oct 21, 2024" = "Oct" ∧
      Crawl.extractDateFromMarkdown "2024-03-05" = "2024-03-05" ∧
      Crawl.extractDateFromMarkdown "no date here" = "" :=
  ⟨rfl, rfl, rfl⟩

namespace TreeB

/-- The fields of a parsed URL (`new URL(...)`) that `buildUrlTree` reads.
`protocol` includes the trailing colon, as in the platform API. -/
structure ParsedUrl where
  protocol : String
  hostname : String
  pathname : String

/-- One entry of the input URL list together with the outcome of the platform
URL parser (which is external to the repository): a `malformed` entry is one
for which `new URL(url)` throws. -/
inductive UrlInput where
  | malformed (raw : String)
  | valid (raw : String) (u : ParsedUrl)

def UrlInput.isValid : UrlInput → Bool
  | .malformed _ => false
  | .valid _ _ => true

/-- `TreeNode`: terminal URLs, ordered children, cached count and cumulative
path. -/
inductive TreeNode where
  | mk (urls : List String) (children : List (String × TreeNode)) (count : Nat)
      (path : String)

def TreeNode.urls : TreeNode → List String
  | .mk u _ _ _ => u

def TreeNode.children : TreeNode → List (String × TreeNode)
  | .mk _ c _ _ => c

def TreeNode.count : TreeNode → Nat
  | .mk _ _ n _ => n

def TreeNode.path : TreeNode → String
  | .mk _ _ _ p => p

/-- `hostname.replace(/^www\./, '')`. -/
def stripWww (h : String) : String :=
  if "www.".toList.isPrefixOf h.toList then String.mk (h.toList.drop 4) else h

/-- The domain key `${protocol}//${normalizedDomain}`. -/
def domainKey (u : ParsedUrl) : String :=
  u.protocol ++ "//" ++ stripWww u.hostname

/-- `urlObj.pathname.split('/').filter(Boolean)`. -/
def pathParts (u : ParsedUrl) : List String :=
  ((JsStr.splitCh '/' u.pathname.toList).filter fun p => !p.isEmpty).map String.mk

/-- Append a value to a keyed bucket, creating the bucket at the end on a new
key (JavaScript object insertion order). -/
def bucketAdd : List (String × List (String × ParsedUrl)) → String →
    (String × ParsedUrl) → List (String × List (String × ParsedUrl))
  | [], k, x => [(k, [x])]
  | (k', xs) :: t, k, x =>
    if k' = k then (k', xs ++ [x]) :: t else (k', xs) :: bucketAdd t k x

/-- Group the parseable URLs by normalized domain; malformed entries are
silently skipped. -/
def urlsByDomain (inputs : List UrlInput) :
    List (String × List (String × ParsedUrl)) :=
  inputs.foldl
    (fun acc i =>
      match i with
      | .malformed _ => acc
      | .valid raw u => bucketAdd acc (domainKey u) (raw, u))
    []

def lookupChild : List (String × TreeNode) → String → Option TreeNode
  | [], _ => none
  | (k', t) :: r, k => if k' = k then some t else lookupChild r k

def upsertChild : List (String × TreeNode) → String → TreeNode →
    List (String × TreeNode)
  | [], k, n => [(k, n)]
  | (k', t) :: r, k, n =>
    if k' = k then (k', n) :: r else (k', t) :: upsertChild r k n

/-- The nested-children walk of `buildUrlTree`: descend (creating nodes as
needed) along the path parts, appending the URL to the terminal node only. -/
def insertParts : List (String × TreeNode) → List String → String → String →
    List (String × TreeNode)
  | ch, [], _, _ => ch
  | ch, part :: rest, curPath, url =>
    let newPath := curPath ++ "/" ++ part
    let node := (lookupChild ch part).getD (.mk [] [] 0 newPath)
    let node1 : TreeNode :=
      if rest.isEmpty then .mk (node.urls ++ [url]) node.children node.count node.path
      else node
    let node2 : TreeNode :=
      .mk node1.urls (insertParts node1.children rest newPath url) node1.count
        node1.path
    upsertChild ch part node2

/-- Insert one URL into its domain node: root-path URLs are recorded on the
domain node itself. -/
def insertIntoDomain (dn : TreeNode) (key : String) (x : String × ParsedUrl) :
    TreeNode :=
  let parts := pathParts x.2
  if parts.isEmpty then .mk (dn.urls ++ [x.1]) dn.children dn.count dn.path
  else .mk dn.urls (insertParts dn.children parts key x.1) dn.count dn.path

/-- Build one domain subtree and set the provisional count
(`domainNode.count = domainUrls.length` in the source; it is overwritten by
the recount pass). -/
def buildDomainNode (key : String) (xs : List (String × ParsedUrl)) : TreeNode :=
  let dn := xs.foldl (fun dn x => insertIntoDomain dn key x) (.mk [] [] 0 key)
  .mk dn.urls dn.children xs.length dn.path

def sumCounts (l : List (String × TreeNode)) : Nat :=
  l.foldr (fun kv acc => kv.2.count + acc) 0

mutual
/-- `updateCounts`: recompute `count = urls.length + Σ child.count`
bottom-up. -/
def recount : TreeNode → TreeNode
  | .mk urls ch _ path =>
    let ch' := recountL ch
    .mk urls ch' (urls.length + sumCounts ch') path

def recountL : List (String × TreeNode) → List (String × TreeNode)
  | [] => []
  | (k, t) :: r => (k, recount t) :: recountL r
end

/-- `buildUrlTree`: group by domain, build each domain subtree, then recount
every root. -/
def buildUrlTree (inputs : List UrlInput) : List (String × TreeNode) :=
  ((urlsByDomain inputs).map fun kv => (kv.1, buildDomainNode kv.1 kv.2)).map
    fun kv => (kv.1, recount kv.2)

mutual
/-- The number of URL entries in a subtree. -/
def totalUrls : TreeNode → Nat
  | .mk urls ch _ _ => urls.length + totalUrlsL ch

def totalUrlsL : List (String × TreeNode) → Nat
  | [] => 0
  | (_, t) :: r => totalUrls t + totalUrlsL r
end

mutual
/-- The count invariant `count == len(urls) + sum(child.count)` at every node
of a subtree. -/
def deepInv : TreeNode → Bool
  | .mk urls ch c _ => (c == urls.length + sumCounts ch) && deepInvL ch

def deepInvL : List (String × TreeNode) → Bool
  | [] => true
  | (_, t) :: r => deepInv t && deepInvL r
end

mutual
/-- `count` equals the number of URL entries of the subtree, at every node. -/
def deepCountEq : TreeNode → Bool
  | .mk urls ch c _ => (c == totalUrls (.mk urls ch c "")) && deepCountEqL ch

def deepCountEqL : List (String × TreeNode) → Bool
  | [] => true
  | (_, t) :: r => deepCountEq t && deepCountEqL r
end

end TreeB

namespace TreeB

theorem totalUrls_eq (t : TreeNode) :
    totalUrls t = t.urls.length + totalUrlsL t.children := by
  cases t; rfl

mutual
theorem recount_count : ∀ t : TreeNode, (recount t).count = totalUrls t
  | .mk urls ch _ _ => by
    show urls.length + sumCounts (recountL ch) = urls.length + totalUrlsL ch
    rw [recountL_sum ch]

theorem recountL_sum : ∀ l : List (String × TreeNode),
    sumCounts (recountL l) = totalUrlsL l
  | [] => rfl
  | (_, t) :: r => by
    show (recount t).count + sumCounts (recountL r) = totalUrls t + totalUrlsL r
    rw [recount_count t, recountL_sum r]
end

mutual
theorem recount_totalUrls : ∀ t : TreeNode, totalUrls (recount t) = totalUrls t
  | .mk urls ch _ _ => by
    show urls.length + totalUrlsL (recountL ch) = urls.length + totalUrlsL ch
    rw [recountL_totalUrls ch]

theorem recountL_totalUrls : ∀ l : List (String × TreeNode),
    totalUrlsL (recountL l) = totalUrlsL l
  | [] => rfl
  | (_, t) :: r => by
    show totalUrls (recount t) + totalUrlsL (recountL r) = totalUrls t + totalUrlsL r
    rw [recount_totalUrls t, recountL_totalUrls r]
end

mutual
theorem recount_deepInv : ∀ t : TreeNode, deepInv (recount t) = true
  | .mk urls ch _ _ => by
    show ((urls.length + sumCounts (recountL ch)
        == urls.length + sumCounts (recountL ch)) && deepInvL (recountL ch)) = true
    rw [recountL_deepInv ch]
    simp

theorem recountL_deepInv : ∀ l : List (String × TreeNode),
    deepInvL (recountL l) = true
  | [] => rfl
  | (_, t) :: r => by
    show (deepInv (recount t) && deepInvL (recountL r)) = true
    rw [recount_deepInv t, recountL_deepInv r]
    rfl
end

mutual
theorem recount_deepCountEq : ∀ t : TreeNode, deepCountEq (recount t) = true
  | .mk urls ch _ _ => by
    show ((urls.length + sumCounts (recountL ch)
          == urls.length + totalUrlsL (recountL ch)) && deepCountEqL (recountL ch))
        = true
    rw [recountL_deepCountEq ch, recountL_sum ch, recountL_totalUrls ch]
    simp

theorem recountL_deepCountEq : ∀ l : List (String × TreeNode),
    deepCountEqL (recountL l) = true
  | [] => rfl
  | (_, t) :: r => by
    show (deepCountEq (recount t) && deepCountEqL (recountL r)) = true
    rw [recount_deepCountEq t, recountL_deepCountEq r]
    rfl
end

theorem upsert_total (ch : List (String × TreeNode)) (k : String) (n d : TreeNode)
    (hd : totalUrls d = 0) :
    totalUrlsL (upsertChild ch k n) + totalUrls ((lookupChild ch k).getD d)
      = totalUrlsL ch + totalUrls n := by
  induction ch with
  | nil =>
    show (totalUrls n + 0) + totalUrls d = 0 + totalUrls n
    omega
  | cons hd' r ih =>
    obtain ⟨k', t⟩ := hd'
    by_cases hk : k' = k
    · simp only [upsertChild, lookupChild, if_pos hk]
      show (totalUrls n + totalUrlsL r) + totalUrls t
        = (totalUrls t + totalUrlsL r) + totalUrls n
      omega
    · simp only [upsertChild, lookupChild, if_neg hk]
      show totalUrls t + totalUrlsL (upsertChild r k n)
          + totalUrls ((lookupChild r k).getD d)
        = totalUrls t + totalUrlsL r + totalUrls n
      omega

theorem insertParts_total :
    ∀ (parts : List String) (ch : List (String × TreeNode)) (curPath url : String),
      parts ≠ [] →
      totalUrlsL (insertParts ch parts curPath url) = totalUrlsL ch + 1 := by
  intro parts
  induction parts with
  | nil => intro ch c u h; exact absurd rfl h
  | cons part rest ih =>
    intro ch curPath url _
    have hzero : totalUrls (TreeNode.mk [] [] 0 (curPath ++ "/" ++ part)) = 0 := rfl
    cases rest with
    | nil =>
      show totalUrlsL (upsertChild ch part
        (.mk ((((lookupChild ch part).getD
              (.mk [] [] 0 (curPath ++ "/" ++ part))).urls ++ [url]))
          (((lookupChild ch part).getD
              (.mk [] [] 0 (curPath ++ "/" ++ part))).children)
          (((lookupChild ch part).getD
              (.mk [] [] 0 (curPath ++ "/" ++ part))).count)
          (((lookupChild ch part).getD
              (.mk [] [] 0 (curPath ++ "/" ++ part))).path))) = totalUrlsL ch + 1
      set nd := (lookupChild ch part).getD (.mk [] [] 0 (curPath ++ "/" ++ part))
        with hnd
      have hup := upsert_total ch part
        (.mk (nd.urls ++ [url]) nd.children nd.count nd.path)
        (.mk [] [] 0 (curPath ++ "/" ++ part)) hzero
      rw [← hnd] at hup
      have h1 : totalUrls (TreeNode.mk (nd.urls ++ [url]) nd.children nd.count nd.path)
          = totalUrls nd + 1 := by
        rw [totalUrls_eq nd]
        show (nd.urls ++ [url]).length + totalUrlsL nd.children = _
        simp
        omega
      omega
    | cons p2 pr =>
      show totalUrlsL (upsertChild ch part
        (.mk (((lookupChild ch part).getD
              (.mk [] [] 0 (curPath ++ "/" ++ part))).urls)
          (insertParts
            (((lookupChild ch part).getD
              (.mk [] [] 0 (curPath ++ "/" ++ part))).children)
            (p2 :: pr) (curPath ++ "/" ++ part) url)
          (((lookupChild ch part).getD
              (.mk [] [] 0 (curPath ++ "/" ++ part))).count)
          (((lookupChild ch part).getD
              (.mk [] [] 0 (curPath ++ "/" ++ part))).path))) = totalUrlsL ch + 1
      set nd := (lookupChild ch part).getD (.mk [] [] 0 (curPath ++ "/" ++ part))
        with hnd
      have hup := upsert_total ch part
        (.mk nd.urls (insertParts nd.children (p2 :: pr) (curPath ++ "/" ++ part) url)
          nd.count nd.path)
        (.mk [] [] 0 (curPath ++ "/" ++ part)) hzero
      rw [← hnd] at hup
      have h1 : totalUrls (TreeNode.mk nd.urls
            (insertParts nd.children (p2 :: pr) (curPath ++ "/" ++ part) url)
            nd.count nd.path)
          = totalUrls nd + 1 := by
        rw [totalUrls_eq nd]
        show nd.urls.length + totalUrlsL
            (insertParts nd.children (p2 :: pr) (curPath ++ "/" ++ part) url) = _
        rw [ih nd.children (curPath ++ "/" ++ part) url (by simp)]
        omega
      omega

theorem insertIntoDomain_total (dn : TreeNode) (key : String)
    (x : String × ParsedUrl) :
    totalUrls (insertIntoDomain dn key x) = totalUrls dn + 1 := by
  unfold insertIntoDomain
  by_cases hp : pathParts x.2 = []
  · rw [hp]
    simp only [List.isEmpty_nil, if_true]
    rw [totalUrls_eq dn]
    show (dn.urls ++ [x.1]).length + totalUrlsL dn.children = _
    simp
    omega
  · have hne : (pathParts x.2).isEmpty = false := by
      cases h : pathParts x.2 with
      | nil => exact absurd h hp
      | cons a t => rfl
    simp only [hne, Bool.false_eq_true, if_false]
    rw [totalUrls_eq dn]
    show dn.urls.length + totalUrlsL (insertParts dn.children (pathParts x.2) key x.1) = _
    rw [insertParts_total (pathParts x.2) dn.children key x.1 hp]
    omega

theorem buildDomainNode_total (key : String) (xs : List (String × ParsedUrl)) :
    totalUrls (buildDomainNode key xs) = xs.length := by
  have main : ∀ (ys : List (String × ParsedUrl)) (dn : TreeNode),
      totalUrls (ys.foldl (fun dn x => insertIntoDomain dn key x) dn)
        = totalUrls dn + ys.length := by
    intro ys
    induction ys with
    | nil => intro dn; simp
    | cons y t ih =>
      intro dn
      show totalUrls (t.foldl _ (insertIntoDomain dn key y)) = _
      rw [ih (insertIntoDomain dn key y), insertIntoDomain_total dn key y]
      simp
      omega
  unfold buildDomainNode
  have h0 := main xs (.mk [] [] 0 key)
  rw [totalUrls_eq]
  show (xs.foldl (fun dn x => insertIntoDomain dn key x) (.mk [] [] 0 key)).urls.length
      + totalUrlsL (xs.foldl (fun dn x => insertIntoDomain dn key x)
          (.mk [] [] 0 key)).children = xs.length
  rw [← totalUrls_eq]
  have hz : totalUrls (TreeNode.mk [] [] 0 key) = 0 := rfl
  omega

end TreeB

namespace TreeB

def sumBuckets (l : List (String × List (String × ParsedUrl))) : Nat :=
  l.foldr (fun kv acc => kv.2.length + acc) 0

theorem bucketAdd_sum (acc : List (String × List (String × ParsedUrl)))
    (k : String) (x : String × ParsedUrl) :
    sumBuckets (bucketAdd acc k x) = sumBuckets acc + 1 := by
  induction acc with
  | nil => rfl
  | cons h r ih =>
    obtain ⟨k', xs⟩ := h
    by_cases hk : k' = k
    · simp only [bucketAdd, if_pos hk]
      show (xs ++ [x]).length + sumBuckets r = (xs.length + sumBuckets r) + 1
      simp
      omega
    · simp only [bucketAdd, if_neg hk]
      show xs.length + sumBuckets (bucketAdd r k x) = (xs.length + sumBuckets r) + 1
      omega

theorem urlsByDomain_sum (inputs : List UrlInput) :
    sumBuckets (urlsByDomain inputs) = (inputs.filter UrlInput.isValid).length := by
  have main : ∀ (l : List UrlInput) (acc : List (String × List (String × ParsedUrl))),
      sumBuckets (l.foldl
        (fun acc i =>
          match i with
          | .malformed _ => acc
          | .valid raw u => bucketAdd acc (domainKey u) (raw, u)) acc)
        = sumBuckets acc + (l.filter UrlInput.isValid).length := by
    intro l
    induction l with
    | nil => intro acc; simp
    | cons i t ih =>
      intro acc
      cases i with
      | malformed raw =>
        show sumBuckets (t.foldl _ acc) = _
        rw [ih acc]
        simp [List.filter_cons, UrlInput.isValid]
      | valid raw u =>
        show sumBuckets (t.foldl _ (bucketAdd acc (domainKey u) (raw, u))) = _
        rw [ih (bucketAdd acc (domainKey u) (raw, u)), bucketAdd_sum]
        simp [List.filter_cons, UrlInput.isValid]
        omega
  have h0 := main inputs []
  unfold urlsByDomain
  have hz : sumBuckets [] = 0 := rfl
  omega

theorem sumCounts_buildUrlTree (inputs : List UrlInput) :
    sumCounts (buildUrlTree inputs) = (inputs.filter UrlInput.isValid).length := by
  unfold buildUrlTree
  have main : ∀ l : List (String × List (String × ParsedUrl)),
      sumCounts (((l.map fun kv => (kv.1, buildDomainNode kv.1 kv.2)).map
        fun kv => (kv.1, recount kv.2))) = sumBuckets l := by
    intro l
    induction l with
    | nil => rfl
    | cons h r ih =>
      obtain ⟨k, xs⟩ := h
      simp only [List.map_cons]
      show (recount (buildDomainNode k xs)).count
          + sumCounts ((r.map fun kv => (kv.1, buildDomainNode kv.1 kv.2)).map
              fun kv => (kv.1, recount kv.2))
        = xs.length + sumBuckets r
      rw [recount_count, buildDomainNode_total, ih]
  rw [main (urlsByDomain inputs), urlsByDomain_sum]

end TreeB

/-- C5 counterexample: one malformed input URL.  The platform URL parser
rejects it, `buildUrlTree` silently skips it, so the tree has no roots and the
root-count sum is `0`, not the deduplicated input size `1`. -/
theorem C5_tree_counts_counterexample :
    TreeB.sumCounts (TreeB.buildUrlTree [TreeB.UrlInput.malformed "not-a-url"]) = 0 ∧
      (0 : Nat) ≠ 1 :=
  ⟨rfl, by decide⟩

/-- C5 (amended): for every input URL list, after the tree is built every
node's `count` equals the length of its own `urls` list plus the sum of its
children's counts — equivalently, the number of URL entries in its subtree —
and the sum of all root counts equals the number of parseable input entries
(for a deduplicated input set of parseable URLs, its size). -/
theorem C5_tree_counts (inputs : List TreeB.UrlInput) :
    ((TreeB.buildUrlTree inputs).all fun kv =>
        TreeB.deepInv kv.2 && TreeB.deepCountEq kv.2) = true ∧
      TreeB.sumCounts (TreeB.buildUrlTree inputs)
        = (inputs.filter TreeB.UrlInput.isValid).length := by
  constructor
  · rw [List.all_eq_true]
    intro kv hkv
    unfold TreeB.buildUrlTree at hkv
    rw [List.mem_map] at hkv
    obtain ⟨kv', _, hkv'⟩ := hkv
    rw [← hkv']
    rw [TreeB.recount_deepInv, TreeB.recount_deepCountEq]
    rfl
  · exact TreeB.sumCounts_buildUrlTree inputs

namespace Exporter

open JsStr

/-- Values of an extracted record as seen by the export layer: string, number,
boolean, array of strings, or null.  JavaScript numbers are modelled as
integers (IEEE-double formatting is outside the embedding). -/
inductive JVal where
  | str (s : String)
  | int (n : Int)
  | bool (b : Bool)
  | arr (xs : List String)
  | null
  deriving Repr, DecidableEq

/-- An extracted record, key-ordered. -/
abbrev ERec := List (String × JVal)

/-- JavaScript truthiness. -/
def jsTruthy : JVal → Bool
  | .str s => s ≠ ""
  | .int n => n ≠ 0
  | .bool b => b
  | .arr _ => true
  | .null => false

/-- First binding of a key (JavaScript property read). -/
def recGet : ERec → String → Option JVal
  | [], _ => none
  | (k', v) :: t, k => if k' = k then some v else recGet t k

/-- `item.k` under `||`: the value when present and truthy. -/
def recOr (r : ERec) (k : String) : Option JVal :=
  match recGet r k with
  | some v => if jsTruthy v then some v else none
  | none => none

def natChars (n : Nat) : List Char :=
  if h : n < 10 then [Char.ofNat (48 + n)]
  else natChars (n / 10) ++ [Char.ofNat (48 + n % 10)]
decreasing_by exact Nat.div_lt_self (by omega) (by omega)

def intChars (n : Int) : List Char :=
  if n < 0 then '-' :: natChars n.natAbs else natChars n.toNat

def natStr (n : Nat) : String := String.mk (natChars n)

/-- `String(v)` / template-literal stringification. -/
def jsToString : JVal → String
  | .str s => s
  | .int n => String.mk (intChars n)
  | .bool b => if b then "true" else "false"
  | .arr xs => String.intercalate "," xs
  | .null => "null"

/-- Element stringification inside `Array.prototype.join` (`null` becomes the
empty string there). -/
def jsJoinStr : JVal → String
  | .null => ""
  | v => jsToString v

def spaces (n : Nat) : List Char := List.replicate n ' '

def hexDig (n : Nat) : Char :=
  if n < 10 then Char.ofNat (48 + n) else Char.ofNat (87 + n)

/-- The escape `JSON.stringify` applies to one string character. -/
def escChar (c : Char) : List Char :=
  if c = '"' then ['\\', '"']
  else if c = '\\' then ['\\', '\\']
  else if c = '\n' then ['\\', 'n']
  else if c = '\r' then ['\\', 'r']
  else if c = '\t' then ['\\', 't']
  else if c = '\x08' then ['\\', 'b']
  else if c = '\x0c' then ['\\', 'f']
  else if c.toNat < 32 then
    ['\\', 'u', '0', '0', hexDig (c.toNat / 16), hexDig (c.toNat % 16)]
  else [c]

def escList : List Char → List Char
  | [] => []
  | c :: t => escChar c ++ escList t

/-- A JSON string literal. -/
def encStr (s : String) : List Char := '"' :: (escList s.toList ++ ['"'])

/-- One pretty-printed value at the given indentation (the shapes
`JSON.stringify(·, null, 2)` produces for this value universe). -/
def serVal (ind : Nat) : JVal → List Char
  | .str s => encStr s
  | .int n => intChars n
  | .bool true => "true".toList
  | .bool false => "false".toList
  | .null => "null".toList
  | .arr [] => "[]".toList
  | .arr (x :: xs) =>
    '[' :: '\n' :: (serArrItems (ind + 2) (x :: xs) ++ '\n' :: (spaces ind ++ [']']))
where
  serArrItems (ind : Nat) : List String → List Char
    | [] => []
    | [s] => spaces ind ++ encStr s
    | s :: rest => spaces ind ++ encStr s ++ ',' :: '\n' :: serArrItems ind rest

/-- The members of a pretty-printed object, one per line. -/
def serMembers (ind : Nat) : ERec → List Char
  | [] => []
  | [(k, v)] => spaces ind ++ (encStr k ++ ':' :: ' ' :: serVal ind v)
  | (k, v) :: rest =>
    spaces ind ++ (encStr k ++ ':' :: ' ' :: serVal ind v) ++ ',' :: '\n' ::
      serMembers ind rest

def serObj (ind : Nat) : ERec → List Char
  | [] => "{}".toList
  | r => '{' :: '\n' :: (serMembers (ind + 2) r ++ '\n' :: (spaces ind ++ ['}']))

def serRecsItems (ind : Nat) : List ERec → List Char
  | [] => []
  | [r] => spaces ind ++ serObj ind r
  | r :: rest => spaces ind ++ serObj ind r ++ ',' :: '\n' :: serRecsItems ind rest

/-- `JSON.stringify(data, null, 2)` for a record array, at the given
indentation. -/
def serRecsArr (ind : Nat) : List ERec → List Char
  | [] => "[]".toList
  | rs =>
    '[' :: '\n' :: (serRecsItems (ind + 2) rs ++ '\n' :: (spaces ind ++ [']']))

def jsonStringifyRecords (data : List ERec) : List Char := serRecsArr 0 data

/-- `JSON.stringify({ items: data }, null, 2)`. -/
def serWebflow (data : List ERec) : List Char :=
  '{' :: '\n' :: (spaces 2 ++ (encStr "items" ++ ':' :: ' ' :: serRecsArr 2 data)
    ++ '\n' :: ['}'])

/-- Parsed JSON values (`JSON.parse` output; numbers restricted to the
integers this development serialises). -/
inductive PVal where
  | str (s : String)
  | int (n : Int)
  | bool (b : Bool)
  | null
  | arr (xs : List PVal)
  | obj (kvs : List (String × PVal))

def jsonWs (c : Char) : Bool := c = ' ' || c = '\n' || c = '\t' || c = '\r'

def skipWs : List Char → List Char
  | [] => []
  | c :: t => if jsonWs c then skipWs t else c :: t

def hexVal (c : Char) : Option Nat :=
  if '0' ≤ c && c ≤ '9' then some (c.toNat - 48)
  else if 'a' ≤ c && c ≤ 'f' then some (c.toNat - 87)
  else if 'A' ≤ c && c ≤ 'F' then some (c.toNat - 55)
  else none

/-- Decode a single-character JSON escape. -/
def escDecode (e : Char) : Option Char :=
  if e = '"' then some '"'
  else if e = '\\' then some '\\'
  else if e = '/' then some '/'
  else if e = 'n' then some '\n'
  else if e = 'r' then some '\r'
  else if e = 't' then some '\t'
  else if e = 'b' then some '\x08'
  else if e = 'f' then some '\x0c'
  else none

/-- The body of a JSON string literal (after the opening quote): unescape up
to the closing quote, returning the content and the remainder. -/
def parseStrL : List Char → Option (List Char × List Char)
  | [] => none
  | c :: t =>
    if c = '"' then some ([], t)
    else if c = '\\' then
      match t with
      | [] => none
      | e :: t2 =>
        if e = 'u' then
          match t2 with
          | a :: b :: c2 :: d :: t3 =>
            match hexVal a, hexVal b, hexVal c2, hexVal d with
            | some ha, some hb, some hc, some hd =>
              (parseStrL t3).map fun p =>
                (Char.ofNat (((ha * 16 + hb) * 16 + hc) * 16 + hd) :: p.1, p.2)
            | _, _, _, _ => none
          | _ => none
        else
          (escDecode e).bind fun ch =>
            (parseStrL t2).map fun p => (ch :: p.1, p.2)
    else (parseStrL t).map fun p => (c :: p.1, p.2)

def parseDigits : Nat → List Char → Nat × List Char
  | acc, [] => (acc, [])
  | acc, c :: t =>
    if isDigitCh c then parseDigits (acc * 10 + (c.toNat - 48)) t else (acc, c :: t)

def parseNat0 : List Char → Option (Nat × List Char)
  | [] => none
  | c :: t =>
    if isDigitCh c then some (parseDigits (c.toNat - 48) t) else none

mutual
/-- A JSON value (fuel-indexed recursive-descent parser). -/
def parseVal : Nat → List Char → Option (PVal × List Char)
  | 0, _ => none
  | fuel + 1, cs =>
    match skipWs cs with
    | [] => none
    | c :: t =>
      if c = '"' then (parseStrL t).map fun p => (.str (String.mk p.1), p.2)
      else if c = '[' then
        match skipWs t with
        | [] => none
        | c2 :: r =>
          if c2 = ']' then some (.arr [], r)
          else (parseItems fuel (c2 :: r)).map fun p => (.arr p.1, p.2)
      else if c = '{' then
        match skipWs t with
        | [] => none
        | c2 :: r =>
          if c2 = '}' then some (.obj [], r)
          else (parseMembers fuel (c2 :: r)).map fun p => (.obj p.1, p.2)
      else if c = 't' then
        if "rue".toList.isPrefixOf t then some (.bool true, t.drop 3) else none
      else if c = 'f' then
        if "alse".toList.isPrefixOf t then some (.bool false, t.drop 4) else none
      else if c = 'n' then
        if "ull".toList.isPrefixOf t then some (.null, t.drop 3) else none
      else if c = '-' then
        (parseNat0 t).map fun p => (.int (-(p.1 : Int)), p.2)
      else if isDigitCh c then
        some (.int ((parseDigits (c.toNat - 48) t).1 : Int),
          (parseDigits (c.toNat - 48) t).2)
      else none

/-- The elements of a nonempty JSON array, including the closing bracket. -/
def parseItems : Nat → List Char → Option (List PVal × List Char)
  | 0, _ => none
  | fuel + 1, cs =>
    match parseVal fuel cs with
    | none => none
    | some (v, r) =>
      match skipWs r with
      | [] => none
      | c :: r2 =>
        if c = ',' then (parseItems fuel r2).map fun p => (v :: p.1, p.2)
        else if c = ']' then some ([v], r2)
        else none

/-- The members of a nonempty JSON object, including the closing brace. -/
def parseMembers : Nat → List Char → Option (List (String × PVal) × List Char)
  | 0, _ => none
  | fuel + 1, cs =>
    match skipWs cs with
    | [] => none
    | c :: t =>
      if c = '"' then
        match parseStrL t with
        | none => none
        | some (k, r) =>
          match skipWs r with
          | [] => none
          | c2 :: r2 =>
            if c2 = ':' then
              match parseVal fuel r2 with
              | none => none
              | some (v, r3) =>
                match skipWs r3 with
                | [] => none
                | c3 :: r4 =>
                  if c3 = ',' then
                    (parseMembers fuel r4).map fun p =>
                      ((String.mk k, v) :: p.1, p.2)
                  else if c3 = '}' then some ([(String.mk k, v)], r4)
                  else none
            else none
      else none
end

/-- `JSON.parse`, requiring full consumption of the input. -/
def parseJson (s : List Char) : Option PVal :=
  match parseVal (s.length + 1) s with
  | some (v, r) => if (skipWs r).isEmpty then some v else none
  | none => none

def jvalToP : JVal → PVal
  | .str s => .str s
  | .int n => .int n
  | .bool b => .bool b
  | .null => .null
  | .arr xs => .arr (xs.map .str)

/-- The structural image of a record list in parsed-JSON values. -/
def toPVal (data : List ERec) : PVal :=
  .arr (data.map fun r => .obj (r.map fun kv => (kv.1, jvalToP kv.2)))

end Exporter

namespace Exporter

open JsStr

/-- Join string chunks with a separator. -/
def joinSep (sep : List Char) : List (List Char) → List Char
  | [] => []
  | [x] => x
  | x :: rest => x ++ sep ++ joinSep sep rest

/-- `replace(/\r?\n/g, ' ')`: every `\n` becomes a space and a `\r`
immediately before a `\n` is deleted.  Computed by a right fold whose flag
records whether the processed suffix began with `\n`. -/
def nfAux : List Char → List Char × Bool
  | [] => ([], false)
  | c :: t =>
    let p := nfAux t
    if c = '\n' then (' ' :: p.1, true)
    else if c = '\r' && p.2 then (p.1, false)
    else (c :: p.1, false)

def newlineFix (cs : List Char) : List Char := (nfAux cs).1

/-- `replace(/"/g, '""')`. -/
def doubleQ : List Char → List Char
  | [] => []
  | c :: t => if c = '"' then '"' :: '"' :: doubleQ t else c :: doubleQ t

/-- A generic-CSV cell: strings have newlines collapsed and quotes doubled and
are then quoted; other values are joined as JavaScript would. -/
def csvCell : JVal → List Char
  | .str s => '"' :: (doubleQ (newlineFix s.toList) ++ ['"'])
  | v => (jsJoinStr v).toList

/-- `convertToCSV`: header row from the first record's keys, then one row of
values per record. -/
def convertToCSV : List ERec → List Char
  | [] => []
  | first :: rest =>
    let headerLine := joinSep [','] (first.map fun kv => kv.1.toList)
    let rows := (first :: rest).map fun item =>
      joinSep [','] (item.map fun kv => csvCell kv.2)
    joinSep ['\n'] (headerLine :: rows)

def shopifyHeaders : List String :=
  ["Handle", "Title", "Body (HTML)", "Vendor", "Type", "Tags", "Published",
   "Option1 Name", "Option1 Value", "Variant SKU", "Variant Grams",
   "Variant Inventory Tracker", "Variant Inventory Qty",
   "Variant Inventory Policy", "Variant Fulfillment Service", "Variant Price",
   "Variant Compare At Price", "Variant Requires Shipping", "Variant Taxable",
   "Variant Barcode", "Image Src", "Image Position", "Image Alt Text",
   "Gift Card", "SEO Title", "SEO Description", "Variant Weight Unit",
   "Status"]

theorem dropWhile_length_le {α : Type} (p : α → Bool) :
    ∀ l : List α, (l.dropWhile p).length ≤ l.length := by
  intro l
  induction l with
  | nil => simp
  | cons a t ih =>
    cases hpa : p a with
    | true =>
      simp only [List.dropWhile_cons, hpa, if_true, List.length_cons]
      omega
    | false =>
      simp only [List.dropWhile_cons, hpa, Bool.false_eq_true, if_false]
      exact Nat.le_refl _

def isSlugKeep (c : Char) : Bool := ('a' ≤ c && c ≤ 'z') || isDigitCh c

/-- `replace(/[^a-z0-9]+/g, '-')` on a lower-cased string. -/
def slugRuns : List Char → List Char
  | [] => []
  | c :: t =>
    if isSlugKeep c then c :: slugRuns t
    else '-' :: slugRuns (t.dropWhile fun x => !isSlugKeep x)
termination_by cs => cs.length
decreasing_by
  all_goals simp_wf
  all_goals first
    | omega
    | (have h := dropWhile_length_le (fun x => !isSlugKeep x) t
       omega)

/-- Collapse every run of hyphens to a single hyphen (the `-+` to `-` replace). -/
def collapseDash : List Char → List Char
  | [] => []
  | c :: t =>
    if c = '-' then '-' :: collapseDash (t.dropWhile fun x => x = '-')
    else c :: collapseDash t
termination_by cs => cs.length
decreasing_by
  all_goals simp_wf
  all_goals first
    | omega
    | (have h := dropWhile_length_le (fun x => x = '-') t
       omega)

/-- `replace(/^-|-$/g, '')`: drop one leading and one trailing hyphen. -/
def stripDashEnds (cs : List Char) : List Char :=
  let a := match cs with
    | '-' :: t => t
    | t => t
  match a.reverse with
  | '-' :: t => t.reverse
  | _ => a

/-- The Shopify handle derived from a title. -/
def shopifyHandle (title : String) : String :=
  String.mk (stripDashEnds (collapseDash (slugRuns (toLowerL title.toList))))

/-- The quoting `formatShopifyCSV` applies to a cell that contains a quote,
comma or newline (quotes doubled first, then newlines collapsed). -/
def escapeShop (v : List Char) : List Char :=
  if v.contains '"' || v.contains ',' || v.contains '\n' then
    '"' :: (newlineFix (doubleQ v) ++ ['"'])
  else v

/-- The 28 raw row values of one Shopify CSV row, in header order. -/
def shopifyRowValues (idx : Nat) (item : ERec) : List String :=
  let title := match recOr item "title" with
    | some v => jsToString v
    | none => "Product " ++ natStr (idx + 1)
  let bodyHtml := match (recOr item "description").orElse
      (fun _ => recOr item "content") with
    | some v => jsToString v
    | none => ""
  let img := (recOr item "image_url").orElse (fun _ => recOr item "image")
  [shopifyHandle title,
   title,
   bodyHtml,
   (match recOr item "vendor" with
    | some v => jsToString v
    | none => "Default Vendor"),
   (match (recOr item "product_type").orElse (fun _ => recOr item "type") with
    | some v => jsToString v
    | none => ""),
   ((recOr item "tags").map jsToString).getD "",
   "TRUE",
   "Title",
   "Default Title",
   ((recOr item "sku").map jsToString).getD "",
   ((recOr item "weight").map jsToString).getD "0",
   "shopify",
   (match (recOr item "inventory_quantity").orElse
      (fun _ => recOr item "stock") with
    | some v => jsToString v
    | none => "0"),
   "deny",
   "manual",
   ((recOr item "price").map jsToString).getD "0",
   ((recOr item "compare_at_price").map jsToString).getD "",
   "TRUE",
   "TRUE",
   ((recOr item "barcode").map jsToString).getD "",
   (img.map jsToString).getD "",
   (if img.isSome then "1" else ""),
   (if img.isSome then title else ""),
   "FALSE",
   String.mk (title.toList.take 70),
   String.mk (bodyHtml.toList.take 320),
   "g",
   "active"]

/-- One serialized Shopify row: the values in header order, each escaped. -/
def shopifyRowLine (idx : Nat) (item : ERec) : List Char :=
  joinSep [','] ((shopifyRowValues idx item).map fun v => escapeShop v.toList)

def shopifyRows : Nat → List ERec → List (List Char)
  | _, [] => []
  | idx, item :: rest => shopifyRowLine idx item :: shopifyRows (idx + 1) rest

def shopifyHeaderLine : List Char :=
  joinSep [','] (shopifyHeaders.map String.toList)

/-- `formatShopifyCSV`: the fixed 28-column header and one mapped row per
record; the empty string for no records. -/
def formatShopifyCSV : List ERec → List Char
  | [] => []
  | data => joinSep ['\n'] (shopifyHeaderLine :: shopifyRows 0 data)

/-- `replace(/\s+/g, '-')`. -/
def wsRunsToDash : List Char → List Char
  | [] => []
  | c :: t =>
    if isWs c then '-' :: wsRunsToDash (t.dropWhile isWs)
    else c :: wsRunsToDash t
termination_by cs => cs.length
decreasing_by
  all_goals simp_wf
  all_goals first
    | omega
    | (have h := dropWhile_length_le isWs t
       omega)

/-- The `wp:post_name` slug. -/
def wpSlug (t : String) : String :=
  String.mk ((wsRunsToDash (toLowerL t.toList)).filter fun c =>
    isSlugKeep c || c = '-')

/-- One `<wp:postmeta>` block. -/
def wpMeta (k v : String) : String :=
  "\n      <wp:postmeta>\n        <wp:meta_key><![CDATA[" ++ k ++
  "]]></wp:meta_key>\n        <wp:meta_value><![CDATA[" ++ v ++
  "]]></wp:meta_value>\n      </wp:postmeta>"

/-- One `<item>` of the WordPress export. -/
def wpItem (nowWP nowUTC : String) (idx : Nat) (item : ERec) : String :=
  let titleStr := match recOr item "title" with
    | some v => jsToString v
    | none => "Post " ++ natStr (idx + 1)
  let contentStr := match (recOr item "content").orElse
      (fun _ => recOr item "description") with
    | some v => jsToString v
    | none => ""
  let pid := natStr (idx + 1)
  let metas := String.join ((item.filter fun kv =>
      !(kv.1 = "title" || kv.1 = "content" || kv.1 = "description" ||
        kv.1 = "date")).map fun kv => wpMeta kv.1 (jsToString kv.2))
  let dateMeta := match recOr item "date" with
    | some v => wpMeta "original_date" (jsToString v)
    | none => ""
  "\n    <item>\n      <title><![CDATA[" ++ titleStr ++
  "]]></title>\n      <link>https://example.com/?p=" ++ pid ++
  "</link>\n      <pubDate>" ++ nowUTC ++
  "</pubDate>\n      <dc:creator><![CDATA[admin]]></dc:creator>\n      " ++
  "<guid isPermaLink=\"false\">https://example.com/?p=" ++ pid ++
  "</guid>\n      <description></description>\n      " ++
  "<content:encoded><![CDATA[" ++ contentStr ++
  "]]></content:encoded>\n      <excerpt:encoded><![CDATA[]]></excerpt:encoded>\n      " ++
  "<wp:post_id>" ++ pid ++ "</wp:post_id>\n      <wp:post_date><![CDATA[" ++
  nowWP ++ "]]></wp:post_date>\n      <wp:post_date_gmt><![CDATA[" ++ nowWP ++
  "]]></wp:post_date_gmt>\n      <wp:post_modified><![CDATA[" ++ nowWP ++
  "]]></wp:post_modified>\n      <wp:post_modified_gmt><![CDATA[" ++ nowWP ++
  "]]></wp:post_modified_gmt>\n      " ++
  "<wp:comment_status><![CDATA[closed]]></wp:comment_status>\n      " ++
  "<wp:ping_status><![CDATA[closed]]></wp:ping_status>\n      " ++
  "<wp:post_name><![CDATA[" ++ wpSlug titleStr ++
  "]]></wp:post_name>\n      <wp:status><![CDATA[publish]]></wp:status>\n      " ++
  "<wp:post_parent>0</wp:post_parent>\n      <wp:menu_order>0</wp:menu_order>\n      " ++
  "<wp:post_type><![CDATA[post]]></wp:post_type>\n      " ++
  "<wp:post_password><![CDATA[]]></wp:post_password>\n      " ++
  "<wp:is_sticky>0</wp:is_sticky>\n      " ++ metas ++ "\n      " ++ dateMeta ++
  "\n    </item>"

def wpItems (nowWP nowUTC : String) : Nat → List ERec → String
  | _, [] => ""
  | idx, item :: rest =>
    wpItem nowWP nowUTC idx item ++ wpItems nowWP nowUTC (idx + 1) rest

/-- `generateWordPressXML`; the clock (formatted local date and UTC string)
is an external input. -/
def generateWordPressXML (nowWP nowUTC : String) (data : List ERec) :
    List Char :=
  ("<?xml version=\"1.0\" encoding=\"UTF-8\"?>\n" ++
   "<!-- This is a WordPress eXtended RSS file generated by Firecrawl Content Migrator -->\n" ++
   "<!-- It contains information about your site's posts, pages, comments, categories, and other content -->\n" ++
   "<!-- You may use this file to transfer that content from one site to another -->\n" ++
   "<!-- This file is not intended to serve as a complete backup of your site -->\n\n" ++
   "<!-- generator=\"Firecrawl Content Migrator\" created=\"" ++ nowWP ++
   "\" -->\n<rss version=\"2.0\"\n" ++
   "  xmlns:excerpt=\"http://wordpress.org/export/1.2/excerpt/\"\n" ++
   "  xmlns:content=\"http://purl.org/rss/1.0/modules/content/\"\n" ++
   "  xmlns:wfw=\"http://wellformedweb.org/CommentAPI/\"\n" ++
   "  xmlns:dc=\"http://purl.org/dc/elements/1.1/\"\n" ++
   "  xmlns:wp=\"http://wordpress.org/export/1.2/\"\n>\n  <channel>\n" ++
   "    <title>Imported Content</title>\n" ++
   "    <link>https://example.com</link>\n" ++
   "    <description>Content imported from Firecrawl</description>\n" ++
   "    <pubDate>" ++ nowUTC ++ "</pubDate>\n" ++
   "    <language>en-US</language>\n" ++
   "    <wp:wxr_version>1.2</wp:wxr_version>\n" ++
   "    <wp:base_site_url>https://example.com</wp:base_site_url>\n" ++
   "    <wp:base_blog_url>https://example.com</wp:base_blog_url>\n    \n" ++
   "    <wp:author>\n      <wp:author_id>1</wp:author_id>\n" ++
   "      <wp:author_login><![CDATA[admin]]></wp:author_login>\n" ++
   "      <wp:author_email><![CDATA[admin@example.com]]></wp:author_email>\n" ++
   "      <wp:author_display_name><![CDATA[Admin]]></wp:author_display_name>\n" ++
   "      <wp:author_first_name><![CDATA[]]></wp:author_first_name>\n" ++
   "      <wp:author_last_name><![CDATA[]]></wp:author_last_name>\n" ++
   "    </wp:author>\n    \n" ++
   "    <generator>https://firecrawl.dev/?v=1.0</generator>\n" ++
   wpItems nowWP nowUTC 0 data ++
   "\n  </channel>\n</rss>").toList

/-- `formatExportData`: dispatch one record list to the selected target
serialization. -/
def formatExportData (data : List ERec) (format : String)
    (nowWP nowUTC : String) : List Char :=
  if format = "json" then jsonStringifyRecords data
  else if format = "shopify" then formatShopifyCSV data
  else if format = "csv" || format = "woocommerce" || format = "drupal" ||
      format = "wix" then convertToCSV data
  else if format = "wordpress" || format = "squarespace" then
    generateWordPressXML nowWP nowUTC data
  else if format = "webflow" then serWebflow data
  else jsonStringifyRecords data

/-- The consecutive slices `data.slice(i, i + size)` of the batching loop. -/
def chunks (data : List ERec) (size : Nat) : List (List ERec) :=
  if data.isEmpty then []
  else if size = 0 then []
  else data.take size :: chunks (data.drop size) size
termination_by data.length
decreasing_by
  simp_wf
  rename_i h1 h2
  have hlen : 0 < data.length := by
    cases data with
    | nil => exact absurd rfl h1
    | cons a t => simp
  omega

/-- The extension table of `downloadBatchedFiles`. -/
def extFor (format : String) : String :=
  if format = "json" then "json"
  else if format = "csv" then "csv"
  else if format = "wordpress" then "xml"
  else if format = "woocommerce" then "csv"
  else if format = "shopify" then "csv"
  else if format = "webflow" then "json"
  else if format = "drupal" then "csv"
  else if format = "squarespace" then "xml"
  else if format = "wix" then "csv"
  else "txt"

def namedParts (format : String) (nowWP nowUTC : String) :
    Nat → List (List ERec) → List (String × List Char)
  | _, [] => []
  | i, c :: rest =>
    ("export-part" ++ natStr (i + 1) ++ "." ++ extFor format,
      formatExportData c format nowWP nowUTC) ::
      namedParts format nowWP nowUTC (i + 1) rest

/-- `downloadBatchedFiles`: slice the records into batches of `size`, format
each batch with the per-target rule and name it `export-part{n}.{ext}`
(1-indexed); the result models the zip archive's file list. -/
def downloadBatchedFiles (data : List ERec) (size : Nat) (format : String)
    (nowWP nowUTC : String) : List (String × List Char) :=
  namedParts format nowWP nowUTC 0 (chunks data size)

end Exporter

namespace Exporter

theorem ceil_rec (len size : Nat) (hs : 0 < size) (hl : 0 < len) :
    (len + size - 1) / size = (len - size + size - 1) / size + 1 := by
  have h1 : len + size - 1 = (len - 1) + size := by omega
  rw [h1, Nat.add_div_right _ hs]
  rcases le_or_lt len size with hle | hlt
  · have h2 : len - size = 0 := by omega
    rw [h2]
    have h3 : (len - 1) / size = 0 := Nat.div_eq_of_lt (by omega)
    have h4 : (0 + size - 1) / size = 0 := Nat.div_eq_of_lt (by omega)
    omega
  · have h2 : len - size + size - 1 = (len - size - 1) + size := by omega
    rw [h2, Nat.add_div_right _ hs]
    have h3 : len - 1 = (len - size - 1) + size := by omega
    rw [h3, Nat.add_div_right _ hs]

theorem chunks_nil (size : Nat) : chunks ([] : List ERec) size = [] := by
  rw [chunks]
  rfl

theorem chunks_cons (a : ERec) (t : List ERec) (size : Nat) (hs : 0 < size) :
    chunks (a :: t) size
      = (a :: t).take size :: chunks ((a :: t).drop size) size := by
  rw [chunks]
  have hne : ((a :: t) : List ERec).isEmpty = false := rfl
  rw [hne]
  simp only [Bool.false_eq_true, if_false, if_neg (by omega : ¬size = 0)]

theorem chunks_length (size : Nat) (hs : 0 < size) :
    ∀ data : List ERec, (chunks data size).length
      = (data.length + size - 1) / size := by
  have main : ∀ n (data : List ERec), data.length ≤ n →
      (chunks data size).length = (data.length + size - 1) / size := by
    intro n
    induction n with
    | zero =>
      intro data hd
      have hnil : data = [] := by
        cases data with
        | nil => rfl
        | cons a t => simp at hd
      subst hnil
      rw [chunks_nil]
      simp only [List.length_nil]
      symm
      exact Nat.div_eq_of_lt (by omega)
    | succ n ih =>
      intro data hd
      cases hdata : data with
      | nil =>
        rw [chunks_nil]
        simp only [List.length_nil]
        symm
        exact Nat.div_eq_of_lt (by omega)
      | cons a t =>
        rw [chunks_cons a t size hs]
        have hlen : (((a :: t) : List ERec).drop size).length ≤ n := by
          rw [List.length_drop]
          subst hdata
          simp only [List.length_cons] at hd ⊢
          omega
        rw [List.length_cons, ih _ hlen, List.length_drop]
        have := ceil_rec (a :: t).length size hs (by simp)
        simp only [List.length_cons] at this ⊢
        omega
  intro data
  exact main data.length data (Nat.le_refl _)

theorem chunks_flatten (size : Nat) (hs : 0 < size) :
    ∀ data : List ERec, (chunks data size).flatten = data := by
  have main : ∀ n (data : List ERec), data.length ≤ n →
      (chunks data size).flatten = data := by
    intro n
    induction n with
    | zero =>
      intro data hd
      have hnil : data = [] := by
        cases data with
        | nil => rfl
        | cons a t => simp at hd
      subst hnil
      rw [chunks_nil]
      rfl
    | succ n ih =>
      intro data hd
      cases hdata : data with
      | nil =>
        rw [chunks_nil]
        rfl
      | cons a t =>
        rw [chunks_cons a t size hs]
        have hlen : (((a :: t) : List ERec).drop size).length ≤ n := by
          rw [List.length_drop]
          subst hdata
          simp only [List.length_cons] at hd ⊢
          omega
        rw [List.flatten_cons, ih _ hlen, List.take_append_drop]
  intro data
  exact main data.length data (Nat.le_refl _)

theorem chunks_sizes (size : Nat) (hs : 0 < size) :
    ∀ data : List ERec,
      (∀ c ∈ (chunks data size).dropLast, c.length = size) ∧
      (∀ c ∈ chunks data size, 0 < c.length ∧ c.length ≤ size) := by
  have main : ∀ n (data : List ERec), data.length ≤ n →
      (∀ c ∈ (chunks data size).dropLast, c.length = size) ∧
      (∀ c ∈ chunks data size, 0 < c.length ∧ c.length ≤ size) := by
    intro n
    induction n with
    | zero =>
      intro data hd
      have hnil : data = [] := by
        cases data with
        | nil => rfl
        | cons a t => simp at hd
      subst hnil
      rw [chunks_nil]
      simp
    | succ n ih =>
      intro data hd
      cases hdata : data with
      | nil =>
        rw [chunks_nil]
        simp
      | cons a t =>
        rw [chunks_cons a t size hs]
        have hlen : (((a :: t) : List ERec).drop size).length ≤ n := by
          rw [List.length_drop]
          subst hdata
          simp only [List.length_cons] at hd ⊢
          omega
        obtain ⟨ihA, ihB⟩ := ih _ hlen
        constructor
        · intro c hc
          rcases hrest : chunks (((a :: t) : List ERec).drop size) size
            with _ | ⟨r, rs⟩
          · rw [hrest] at hc
            simp at hc
          · rw [hrest] at hc
            rw [List.dropLast_cons_of_ne_nil (by simp)] at hc
            rcases List.mem_cons.mp hc with hceq | hcm
            · subst hceq
              rw [List.length_take]
              have hdropne : ((a :: t) : List ERec).drop size ≠ [] := by
                intro hnil
                rw [hnil, chunks_nil] at hrest
                exact List.noConfusion hrest
              have hlt : size < ((a :: t) : List ERec).length := by
                by_contra hcon
                exact hdropne (List.drop_eq_nil_of_le (by omega))
              simp only [List.length_cons] at hlt ⊢
              omega
            · rw [← hrest] at hcm
              exact ihA c hcm
        · intro c hc
          rcases List.mem_cons.mp hc with hceq | hcm
          · subst hceq
            rw [List.length_take]
            simp only [List.length_cons, Nat.lt_iff_add_one_le, Nat.le_min]
            constructor
            · constructor
              · omega
              · omega
            · omega
          · exact ihB c hcm
  intro data
  exact main data.length data (Nat.le_refl _)

theorem namedParts_length (fmt nowWP nowUTC : String) :
    ∀ (l : List (List ERec)) (i : Nat),
      (namedParts fmt nowWP nowUTC i l).length = l.length := by
  intro l
  induction l with
  | nil => intro i; rfl
  | cons c rest ih =>
    intro i
    show (namedParts fmt nowWP nowUTC (i + 1) rest).length + 1 = rest.length + 1
    rw [ih (i + 1)]

theorem namedParts_get (fmt nowWP nowUTC : String) :
    ∀ (l : List (List ERec)) (i0 j : Nat) (c : List ERec),
      l[j]? = some c →
      (namedParts fmt nowWP nowUTC i0 l)[j]? =
        some ("export-part" ++ natStr (i0 + j + 1) ++ "." ++ extFor fmt,
          formatExportData c fmt nowWP nowUTC) := by
  intro l
  induction l with
  | nil => intro i0 j c h; simp at h
  | cons x rest ih =>
    intro i0 j c h
    cases j with
    | zero =>
      simp only [List.getElem?_cons_zero, Option.some.injEq] at h
      subst h
      simp only [namedParts, List.getElem?_cons_zero]
    | succ j =>
      simp only [List.getElem?_cons_succ] at h
      simp only [namedParts, List.getElem?_cons_succ]
      rw [ih (i0 + 1) j c h]
      have harg : i0 + 1 + j + 1 = i0 + (j + 1) + 1 := by omega
      rw [harg]

end Exporter

/-- C7: batched export slices the records into `ceil(len/batchSize)`
consecutive chunks of `batchSize` records (the last possibly shorter but
never empty), serializes each chunk independently with the same per-target
rule and names part `n` `export-part{n}.{ext}`, 1-indexed. -/
theorem C7_batched_export (data : List Exporter.ERec) (size : Nat)
    (fmt nowWP nowUTC : String) (hs : 1 ≤ size) :
    (Exporter.downloadBatchedFiles data size fmt nowWP nowUTC).length
        = (data.length + size - 1) / size ∧
      (Exporter.chunks data size).flatten = data ∧
      (∀ c ∈ (Exporter.chunks data size).dropLast, c.length = size) ∧
      (∀ c ∈ Exporter.chunks data size, 0 < c.length ∧ c.length ≤ size) ∧
      (∀ (i : Nat) (chunk : List Exporter.ERec),
        (Exporter.chunks data size)[i]? = some chunk →
        (Exporter.downloadBatchedFiles data size fmt nowWP nowUTC)[i]? =
          some ("export-part" ++ Exporter.natStr (i + 1) ++ "." ++
              Exporter.extFor fmt,
            Exporter.formatExportData chunk fmt nowWP nowUTC)) := by
  obtain ⟨hA, hB⟩ := Exporter.chunks_sizes size hs data
  refine ⟨?_, Exporter.chunks_flatten size hs data, hA, hB, ?_⟩
  · unfold Exporter.downloadBatchedFiles
    rw [Exporter.namedParts_length, Exporter.chunks_length size hs]
  · intro i chunk hc
    unfold Exporter.downloadBatchedFiles
    have := Exporter.namedParts_get fmt nowWP nowUTC (Exporter.chunks data size)
      0 i chunk hc
    simpa using this

/-- C7 witness: 127 records at batch size 50 produce three parts named
`export-part1..3` of sizes 50, 50 and 27; 50 records produce exactly one
part. -/
theorem C7_batched_export_witness :
    (Exporter.downloadBatchedFiles (List.replicate 127 ([] : Exporter.ERec))
        50 "json" "D" "U").length = 3 ∧
      (∀ c ∈ (Exporter.chunks (List.replicate 127 ([] : Exporter.ERec))
          50).dropLast, c.length = 50) ∧
      (Exporter.chunks (List.replicate 127 ([] : Exporter.ERec))
          50).flatten.length = 127 ∧
      (Exporter.downloadBatchedFiles (List.replicate 50 ([] : Exporter.ERec))
        50 "json" "D" "U").length = 1 := by
  have h127 := C7_batched_export (List.replicate 127 ([] : Exporter.ERec))
    50 "json" "D" "U" (by decide)
  have h50 := C7_batched_export (List.replicate 50 ([] : Exporter.ERec))
    50 "json" "D" "U" (by decide)
  refine ⟨?_, h127.2.2.1, ?_, ?_⟩
  · rw [h127.1]
    simp only [List.length_replicate]
  · rw [h127.2.1]
    simp only [List.length_replicate]
  · rw [h50.1]
    simp only [List.length_replicate]
namespace Exporter

/-- Character membership (`String.prototype.includes` with one character). -/
def hasCh : List Char → Char → Bool
  | [], _ => false
  | c :: t, x => c = x || hasCh t x

/-- CSV line scanner: unquoted-comma count and final quote state. -/
def csvScan : List Char → Bool → Nat × Bool
  | [], inQ => (0, inQ)
  | c :: t, inQ =>
    if c = '"' then csvScan t (!inQ)
    else if c = ',' && !inQ then
      ((csvScan t inQ).1 + 1, (csvScan t inQ).2)
    else csvScan t inQ

/-- The number of CSV fields on one line. -/
def csvFieldCount (line : List Char) : Nat := (csvScan line false).1 + 1

/-- Split a text into its lines. -/
def splitNl : List Char → List (List Char)
  | [] => [[]]
  | c :: t =>
    if c = '\n' then [] :: splitNl t
    else
      match splitNl t with
      | h :: r => (c :: h) :: r
      | [] => [[c]]

/-- The rows of a CSV text (none for the empty output). -/
def csvLines (s : List Char) : List (List Char) :=
  if s.isEmpty then [] else splitNl s

theorem csvScan_append (a b : List Char) :
    ∀ s, csvScan (a ++ b) s
      = ((csvScan a s).1 + (csvScan b (csvScan a s).2).1,
         (csvScan b (csvScan a s).2).2) := by
  induction a with
  | nil => intro s; simp [csvScan]
  | cons c t ih =>
    intro s
    by_cases hq : c = '"'
    · simp only [List.cons_append, csvScan, if_pos hq, List.append_eq]
      exact ih (!s)
    · by_cases hc : (c = ',' && !s) = true
      · simp only [List.cons_append, csvScan, if_neg hq, if_pos hc, List.append_eq]
        rw [ih s]
        simp only [Prod.mk.injEq]
        exact ⟨by omega, trivial⟩
      · simp only [List.cons_append, csvScan, if_neg hq, if_neg hc, List.append_eq]
        exact ih s

theorem csvScan_nf_doubleQ : ∀ v : List Char,
    csvScan (nfAux (doubleQ v)).1 true = (0, true) := by
  intro v
  induction v with
  | nil => rfl
  | cons c t ih =>
    by_cases hq : c = '"'
    · subst hq
      simp only [doubleQ, if_pos rfl, nfAux]
      norm_num
      simp only [csvScan, if_pos rfl]
      norm_num
      exact ih
    · simp only [doubleQ, if_neg hq]
      by_cases hn : c = '\n'
      · subst hn
        simp only [nfAux, if_pos rfl]
        simp only [csvScan]
        norm_num
        exact ih
      · by_cases hr : c = '\r'
        · subst hr
          simp only [nfAux, if_neg (by decide : ¬('\r' : Char) = '\n')]
          by_cases hp : (nfAux (doubleQ t)).2
          · simp only [hp, Bool.and_true, if_pos rfl]
            exact ih
          · simp only [Bool.not_eq_true] at hp
            simp only [hp, Bool.and_false, Bool.false_eq_true, if_false]
            simp only [csvScan]
            norm_num
            exact ih
        · simp only [nfAux, if_neg hn, hr, Bool.false_and, Bool.false_eq_true,
            if_false]
          simp only [csvScan, if_neg hq]
          norm_num
          exact ih

theorem csvScan_plain : ∀ v : List Char,
    hasCh v '"' = false → hasCh v ',' = false →
    csvScan v false = (0, false) := by
  intro v
  induction v with
  | nil => intro _ _; rfl
  | cons c t ih =>
    intro h1 h2
    simp only [hasCh, Bool.or_eq_false_iff, decide_eq_false_iff_not] at h1 h2
    simp only [csvScan, if_neg h1.1]
    have : (c = ',' && !false) = false := by
      simp [h2.1]
    simp only [this, Bool.false_eq_true, if_false]
    exact ih h1.2 h2.2

theorem hasCh_eq_contains (v : List Char) (x : Char) :
    hasCh v x = v.contains x := by
  induction v with
  | nil => rfl
  | cons c t ih =>
    simp only [hasCh, List.contains_cons, ih]
    by_cases h : c = x
    · subst h
      simp
    · simp [h, Ne.symm h]

theorem csvScan_newlineFix_doubleQ (v : List Char) :
    csvScan (newlineFix (doubleQ v)) true = (0, true) :=
  csvScan_nf_doubleQ v

theorem csvScan_escapeShop (v : List Char) :
    csvScan (escapeShop v) false = (0, false) := by
  unfold escapeShop
  by_cases hcond : (v.contains '"' || v.contains ',' || v.contains '\n') = true
  · rw [if_pos hcond]
    have step : csvScan ('"' :: (newlineFix (doubleQ v) ++ ['"'])) false
        = csvScan (newlineFix (doubleQ v) ++ ['"']) true := by
      simp [csvScan]
    rw [step, csvScan_append, csvScan_newlineFix_doubleQ]
    rfl
  · rw [if_neg hcond]
    simp only [Bool.or_eq_true, not_or, Bool.not_eq_true] at hcond
    exact csvScan_plain v
      (by rw [hasCh_eq_contains]; exact hcond.1.1)
      (by rw [hasCh_eq_contains]; exact hcond.1.2)

theorem fieldCount_joinSep : ∀ cells : List (List Char), cells ≠ [] →
    (∀ c ∈ cells, csvScan c false = (0, false)) →
    csvFieldCount (joinSep [','] cells) = cells.length := by
  intro cells
  induction cells with
  | nil => intro h _; exact absurd rfl h
  | cons x rest ih =>
    intro _ hall
    cases rest with
    | nil =>
      show csvFieldCount x = 1
      unfold csvFieldCount
      rw [hall x (List.mem_cons_self x [])]
    | cons y ys =>
      show csvFieldCount (x ++ [','] ++ joinSep [','] (y :: ys)) = (y :: ys).length + 1
      unfold csvFieldCount
      rw [List.append_assoc, csvScan_append,
        hall x (List.mem_cons_self x (y :: ys))]
      have hrest : csvFieldCount (joinSep [','] (y :: ys)) = (y :: ys).length :=
        ih (by simp) (fun c hc => hall c (List.mem_cons_of_mem x hc))
      unfold csvFieldCount at hrest
      have hstep : csvScan (',' :: joinSep [','] (y :: ys)) false
          = ((csvScan (joinSep [','] (y :: ys)) false).1 + 1,
             (csvScan (joinSep [','] (y :: ys)) false).2) := by
        simp [csvScan]
      show (0 + (csvScan (',' :: joinSep [','] (y :: ys)) false).1) + 1 = _
      rw [hstep]
      simp only [List.length_cons] at hrest ⊢
      omega

theorem hasCh_append (a b : List Char) (x : Char) :
    hasCh (a ++ b) x = (hasCh a x || hasCh b x) := by
  induction a with
  | nil => simp [hasCh]
  | cons c t ih =>
    simp only [List.cons_append, hasCh, List.append_eq, ih, Bool.or_assoc]

theorem noNl_newlineFix : ∀ v : List Char, hasCh (newlineFix v) '\n' = false := by
  have main : ∀ v : List Char, hasCh (nfAux v).1 '\n' = false := by
    intro v
    induction v with
    | nil => rfl
    | cons c t ih =>
      by_cases hn : c = '\n'
      · subst hn
        simp only [nfAux, if_pos rfl]
        simp [hasCh, ih]
      · by_cases hr : (c = '\r' && (nfAux t).2) = true
        · simp only [nfAux, if_neg hn, if_pos hr]
          exact ih
        · simp only [nfAux, if_neg hn, if_neg hr]
          simp [hasCh, hn, ih]
  intro v
  exact main v

theorem noNl_escapeShop (v : List Char) : hasCh (escapeShop v) '\n' = false := by
  unfold escapeShop
  by_cases hcond : (v.contains '"' || v.contains ',' || v.contains '\n') = true
  · rw [if_pos hcond]
    show hasCh ('"' :: (newlineFix (doubleQ v) ++ ['"'])) '\n' = false
    simp [hasCh, hasCh_append, noNl_newlineFix]
  · rw [if_neg hcond]
    simp only [Bool.or_eq_true, not_or, Bool.not_eq_true] at hcond
    rw [hasCh_eq_contains]
    exact hcond.2

theorem splitNl_no_nl : ∀ x : List Char, hasCh x '\n' = false →
    splitNl x = [x] := by
  intro x
  induction x with
  | nil => intro _; rfl
  | cons c t ih =>
    intro h
    simp only [hasCh, Bool.or_eq_false_iff, decide_eq_false_iff_not] at h
    simp only [splitNl, if_neg h.1]
    rw [ih h.2]

theorem splitNl_cons_sep (z : List Char) : ∀ x : List Char,
    hasCh x '\n' = false →
    splitNl (x ++ '\n' :: z) = x :: splitNl z := by
  intro x
  induction x with
  | nil =>
    intro _
    simp [splitNl]
  | cons c t ih =>
    intro h
    simp only [hasCh, Bool.or_eq_false_iff, decide_eq_false_iff_not] at h
    simp only [List.cons_append, splitNl, List.append_eq, if_neg h.1]
    rw [ih h.2]

theorem splitNl_joinSep : ∀ lines : List (List Char), lines ≠ [] →
    (∀ l ∈ lines, hasCh l '\n' = false) →
    splitNl (joinSep ['\n'] lines) = lines := by
  intro lines
  induction lines with
  | nil => intro h _; exact absurd rfl h
  | cons x rest ih =>
    intro _ hall
    cases rest with
    | nil =>
      show splitNl x = [x]
      exact splitNl_no_nl x (hall x (List.mem_cons_self x []))
    | cons y ys =>
      show splitNl (x ++ ['\n'] ++ joinSep ['\n'] (y :: ys)) = x :: y :: ys
      rw [List.append_assoc]
      show splitNl (x ++ '\n' :: joinSep ['\n'] (y :: ys)) = x :: y :: ys
      rw [splitNl_cons_sep _ x (hall x (List.mem_cons_self x (y :: ys)))]
      rw [ih (by simp) (fun l hl => hall l (List.mem_cons_of_mem x hl))]

end Exporter

namespace Exporter

theorem noNl_joinSep : ∀ cells : List (List Char),
    (∀ c ∈ cells, hasCh c '\n' = false) →
    hasCh (joinSep [','] cells) '\n' = false := by
  intro cells
  induction cells with
  | nil => intro _; rfl
  | cons x rest ih =>
    intro hall
    cases rest with
    | nil => exact hall x (List.mem_cons_self x [])
    | cons y ys =>
      show hasCh (x ++ [','] ++ joinSep [','] (y :: ys)) '\n' = false
      rw [hasCh_append, hasCh_append]
      simp only [hall x (List.mem_cons_self x (y :: ys)),
        ih (fun c hc => hall c (List.mem_cons_of_mem x hc))]
      rfl

theorem shopifyRowValues_length (idx : Nat) (item : ERec) :
    (shopifyRowValues idx item).length = 28 := rfl

theorem shopifyRowLine_fields (idx : Nat) (item : ERec) :
    csvFieldCount (shopifyRowLine idx item) = 28 := by
  unfold shopifyRowLine
  rw [fieldCount_joinSep _ (by simp [shopifyRowValues])]
  · rw [List.length_map, shopifyRowValues_length]
  · intro c hc
    obtain ⟨v, _, hv⟩ := List.mem_map.mp hc
    rw [← hv]
    exact csvScan_escapeShop v.toList

theorem shopifyRowLine_noNl (idx : Nat) (item : ERec) :
    hasCh (shopifyRowLine idx item) '\n' = false := by
  unfold shopifyRowLine
  apply noNl_joinSep
  intro c hc
  obtain ⟨v, _, hv⟩ := List.mem_map.mp hc
  rw [← hv]
  exact noNl_escapeShop v.toList

theorem shopifyRows_mem : ∀ (data : List ERec) (idx : Nat) (l : List Char),
    l ∈ shopifyRows idx data → ∃ i item, l = shopifyRowLine i item := by
  intro data
  induction data with
  | nil => intro idx l h; simp [shopifyRows] at h
  | cons a rest ih =>
    intro idx l h
    rcases List.mem_cons.mp h with he | hm
    · exact ⟨idx, a, he⟩
    · exact ih (idx + 1) l hm

theorem joinSep_cons_ne_nil (x : List Char) (r : List (List Char))
    (hx : x ≠ []) : (joinSep ['\n'] (x :: r)).isEmpty = false := by
  cases r with
  | nil =>
    show x.isEmpty = false
    cases x with
    | nil => exact absurd rfl hx
    | cons c t => rfl
  | cons y ys =>
    show (x ++ ['\n'] ++ joinSep ['\n'] (y :: ys)).isEmpty = false
    cases x with
    | nil => exact absurd rfl hx
    | cons c t => rfl

end Exporter

set_option maxRecDepth 4096 in
/-- C6: for every input record list, every row of the Shopify CSV export —
the header row included — has exactly 28 CSV fields, regardless of which
fields the records carry; and for a record with none of the numeric-ish
source fields, `Variant Grams`, `Variant Inventory Qty` and `Variant Price`
default to `"0"`. -/
theorem C6_shopify_columns (data : List Exporter.ERec) :
    ((Exporter.csvLines (Exporter.formatShopifyCSV data)).all fun l =>
        Exporter.csvFieldCount l == 28) = true ∧
      (Exporter.shopifyRowValues 0 ([] : Exporter.ERec))[10]? = some "0" ∧
      (Exporter.shopifyRowValues 0 ([] : Exporter.ERec))[12]? = some "0" ∧
      (Exporter.shopifyRowValues 0 ([] : Exporter.ERec))[15]? = some "0" := by
  refine ⟨?_, rfl, rfl, rfl⟩
  cases data with
  | nil => rfl
  | cons a rest =>
    show ((Exporter.csvLines (Exporter.joinSep ['\n']
      (Exporter.shopifyHeaderLine :: Exporter.shopifyRows 0 (a :: rest)))).all
        fun l => Exporter.csvFieldCount l == 28) = true
    unfold Exporter.csvLines
    rw [Exporter.joinSep_cons_ne_nil _ _ (by decide)]
    simp only [Bool.false_eq_true, if_false]
    rw [Exporter.splitNl_joinSep _ (by simp) ?noNl]
    case noNl =>
      intro l hl
      rcases List.mem_cons.mp hl with he | hm
      · rw [he]
        decide
      · obtain ⟨i, item, hli⟩ := Exporter.shopifyRows_mem (a :: rest) 0 l hm
        rw [hli]
        exact Exporter.shopifyRowLine_noNl i item
    rw [List.all_eq_true]
    intro l hl
    rcases List.mem_cons.mp hl with he | hm
    · rw [he]
      decide
    · obtain ⟨i, item, hli⟩ := Exporter.shopifyRows_mem (a :: rest) 0 l hm
      rw [hli, Exporter.shopifyRowLine_fields i item]
      decide

namespace Exporter

/-- A list of whitespace characters only. -/
def onlyWs (pre : List Char) : Prop := ∀ c ∈ pre, jsonWs c = true

theorem skipWs_ws_append (pre : List Char) (hpre : onlyWs pre) (x : List Char) :
    skipWs (pre ++ x) = skipWs x := by
  induction pre with
  | nil => rfl
  | cons c t ih =>
    have hc := hpre c (List.mem_cons_self c t)
    show skipWs (c :: (t ++ x)) = skipWs x
    simp only [skipWs, hc, if_true]
    exact ih fun d hd => hpre d (List.mem_cons_of_mem c hd)

theorem skipWs_cons_nonws (c : Char) (hc : jsonWs c = false) (x : List Char) :
    skipWs (c :: x) = c :: x := by
  simp only [skipWs, hc, Bool.false_eq_true, if_false]

theorem onlyWs_spaces (k : Nat) : onlyWs (spaces k) := by
  intro c hc
  rw [List.eq_of_mem_replicate hc]
  rfl

theorem onlyWs_nil : onlyWs [] := fun c hc => absurd hc (List.not_mem_nil c)

theorem onlyWs_cons (c : Char) (hc : jsonWs c = true) (t : List Char)
    (ht : onlyWs t) : onlyWs (c :: t) := by
  intro d hd
  rcases List.mem_cons.mp hd with he | hm
  · rw [he]; exact hc
  · exact ht d hm

theorem hexVal_hexDig : ∀ n, n < 16 → hexVal (hexDig n) = some n := by decide

theorem escDecode_escapes :
    escDecode '"' = some '"' ∧ escDecode '\\' = some '\\' ∧
    escDecode 'n' = some '\n' ∧ escDecode 'r' = some '\r' ∧
    escDecode 't' = some '\t' ∧ escDecode 'b' = some '\x08' ∧
    escDecode 'f' = some '\x0c' := by decide

theorem parseStrL_esc (e ch : Char) (he : escDecode e = some ch)
    (hne : ¬e = 'u') (X : List Char) :
    parseStrL ('\\' :: e :: X)
      = (parseStrL X).map fun p => (ch :: p.1, p.2) := by
  rw [parseStrL.eq_def]
  simp [hne, he]

theorem parseStrL_u (a b : Char) (va vb : Nat) (ha : hexVal a = some va)
    (hb : hexVal b = some vb) (X : List Char) :
    parseStrL ('\\' :: 'u' :: '0' :: '0' :: a :: b :: X)
      = (parseStrL X).map fun p =>
          (Char.ofNat (((0 * 16 + 0) * 16 + va) * 16 + vb) :: p.1, p.2) := by
  rw [parseStrL.eq_def]
  simp [ha, hb, (by decide : hexVal '0' = some 0)]

theorem parseStrL_plain (c : Char) (h1 : ¬c = '"') (h2 : ¬c = '\\')
    (X : List Char) :
    parseStrL (c :: X) = (parseStrL X).map fun p => (c :: p.1, p.2) := by
  rw [parseStrL.eq_def]
  simp [h1, h2]

theorem parseStrL_round : ∀ cs rest,
    parseStrL (escList cs ++ '"' :: rest) = some (cs, rest) := by
  intro cs
  induction cs with
  | nil =>
    intro rest
    show parseStrL ('"' :: rest) = some ([], rest)
    rw [parseStrL.eq_def]
    simp
  | cons c t ih =>
    intro rest
    rw [show escList (c :: t) = escChar c ++ escList t from rfl,
      List.append_assoc]
    unfold escChar
    by_cases h1 : c = '"'
    · subst h1
      simp only [if_pos rfl]
      show parseStrL ('\\' :: '"' :: (escList t ++ '"' :: rest)) = _
      rw [parseStrL_esc '"' '"' (by decide) (by decide), ih rest]
      rfl
    · rw [if_neg h1]
      by_cases h2 : c = '\\'
      · subst h2
        simp only [if_pos rfl]
        show parseStrL ('\\' :: '\\' :: (escList t ++ '"' :: rest)) = _
        rw [parseStrL_esc '\\' '\\' (by decide) (by decide), ih rest]
        rfl
      · rw [if_neg h2]
        by_cases h3 : c = '\n'
        · subst h3
          simp only [if_pos rfl]
          show parseStrL ('\\' :: 'n' :: (escList t ++ '"' :: rest)) = _
          rw [parseStrL_esc 'n' '\n' (by decide) (by decide), ih rest]
          rfl
        · rw [if_neg h3]
          by_cases h4 : c = '\r'
          · subst h4
            simp only [if_pos rfl]
            show parseStrL ('\\' :: 'r' :: (escList t ++ '"' :: rest)) = _
            rw [parseStrL_esc 'r' '\r' (by decide) (by decide), ih rest]
            rfl
          · rw [if_neg h4]
            by_cases h5 : c = '\t'
            · subst h5
              simp only [if_pos rfl]
              show parseStrL ('\\' :: 't' :: (escList t ++ '"' :: rest)) = _
              rw [parseStrL_esc 't' '\t' (by decide) (by decide), ih rest]
              rfl
            · rw [if_neg h5]
              by_cases h6 : c = '\x08'
              · subst h6
                simp only [if_pos rfl]
                show parseStrL ('\\' :: 'b' :: (escList t ++ '"' :: rest)) = _
                rw [parseStrL_esc 'b' '\x08' (by decide) (by decide), ih rest]
                rfl
              · rw [if_neg h6]
                by_cases h7 : c = '\x0c'
                · subst h7
                  simp only [if_pos rfl]
                  show parseStrL ('\\' :: 'f' :: (escList t ++ '"' :: rest)) = _
                  rw [parseStrL_esc 'f' '\x0c' (by decide) (by decide), ih rest]
                  rfl
                · rw [if_neg h7]
                  by_cases h8 : c.toNat < 32
                  · rw [if_pos h8]
                    show parseStrL ('\\' :: 'u' :: '0' :: '0' ::
                      hexDig (c.toNat / 16) :: hexDig (c.toNat % 16) ::
                      (escList t ++ '"' :: rest)) = _
                    rw [parseStrL_u _ _ _ _
                      (hexVal_hexDig (c.toNat / 16) (by omega))
                      (hexVal_hexDig (c.toNat % 16)
                        (Nat.mod_lt c.toNat (by omega))),
                      ih rest]
                    simp only [Option.map_some']
                    rw [show ((0 * 16 + 0) * 16 + c.toNat / 16) * 16
                        + c.toNat % 16 = c.toNat by omega,
                      Char.ofNat_toNat]
                  · rw [if_neg h8]
                    show parseStrL (c :: (escList t ++ '"' :: rest)) = _
                    rw [parseStrL_plain c h1 h2, ih rest]
                    rfl

end Exporter

namespace Exporter

open JsStr

/-- The number of decimal digits `natChars` emits. -/
def numDigits (n : Nat) : Nat :=
  if n < 10 then 1 else numDigits (n / 10) + 1
decreasing_by exact Nat.div_lt_self (by omega) (by omega)

theorem digit_char_isDigit : ∀ d, d < 10 → isDigitCh (Char.ofNat (48 + d)) = true := by
  decide

theorem digit_char_val : ∀ d, d < 10 → (Char.ofNat (48 + d)).toNat - 48 = d := by
  decide

theorem parseDigits_digit (acc : Nat) (c : Char) (t : List Char)
    (h : isDigitCh c = true) :
    parseDigits acc (c :: t) = parseDigits (acc * 10 + (c.toNat - 48)) t := by
  rw [parseDigits, if_pos h]

theorem parseDigits_natChars : ∀ n acc rest,
    parseDigits acc (natChars n ++ rest)
      = parseDigits (acc * 10 ^ numDigits n + n) rest := by
  have main : ∀ fuel n, n ≤ fuel → ∀ acc rest,
      parseDigits acc (natChars n ++ rest)
        = parseDigits (acc * 10 ^ numDigits n + n) rest := by
    intro fuel
    induction fuel with
    | zero =>
      intro n hn acc rest
      have h0 : n = 0 := by omega
      subst h0
      rw [show natChars 0 = [Char.ofNat (48 + 0)] from by rw [natChars]; rfl]
      rw [show numDigits 0 = 1 from by rw [numDigits]; rfl]
      show parseDigits acc (Char.ofNat (48 + 0) :: rest) = _
      rw [parseDigits_digit _ _ _ (digit_char_isDigit 0 (by omega)),
        digit_char_val 0 (by omega)]
      norm_num
    | succ fuel ih =>
      intro n hn acc rest
      by_cases hsmall : n < 10
      · rw [show natChars n = [Char.ofNat (48 + n % 10)] from by
          rw [natChars]; simp [hsmall, Nat.mod_eq_of_lt hsmall]]
        rw [show numDigits n = 1 from by rw [numDigits]; simp [hsmall]]
        show parseDigits acc (Char.ofNat (48 + n % 10) :: rest) = _
        rw [Nat.mod_eq_of_lt hsmall]
        rw [parseDigits_digit _ _ _ (digit_char_isDigit n hsmall),
          digit_char_val n hsmall]
        norm_num
      · rw [show natChars n = natChars (n / 10) ++ [Char.ofNat (48 + n % 10)]
            from by rw [natChars]; simp [hsmall]]
        rw [List.append_assoc]
        rw [show ([Char.ofNat (48 + n % 10)] ++ rest : List Char)
          = Char.ofNat (48 + n % 10) :: rest from rfl]
        rw [ih (n / 10) (by omega) acc (Char.ofNat (48 + n % 10) :: rest)]
        have hd : n % 10 < 10 := Nat.mod_lt n (by omega)
        rw [parseDigits_digit _ _ _ (digit_char_isDigit (n % 10) hd),
          digit_char_val (n % 10) hd]
        rw [show numDigits n = numDigits (n / 10) + 1 from by
          rw [numDigits]; simp [hsmall]]
        have harith : (acc * 10 ^ numDigits (n / 10) + n / 10) * 10 + n % 10
            = acc * 10 ^ (numDigits (n / 10) + 1) + n := by
          rw [pow_succ]
          have hnm : n = 10 * (n / 10) + n % 10 := (Nat.div_add_mod n 10).symm
          ring_nf
          omega
        rw [harith]
  intro n acc rest
  exact main n n (Nat.le_refl _) acc rest

/-- The remainder begins with something that cannot extend a number. -/
def headSafe : List Char → Prop
  | [] => True
  | c :: _ => isDigitCh c = false

theorem parseDigits_stop (acc : Nat) (rest : List Char) (h : headSafe rest) :
    parseDigits acc rest = (acc, rest) := by
  cases rest with
  | nil => rfl
  | cons c t =>
    rw [parseDigits]
    simp only [headSafe] at h
    simp [h]

theorem natChars_head : ∀ n, ∃ c t, natChars n = c :: t ∧ isDigitCh c = true := by
  have main : ∀ fuel n, n ≤ fuel →
      ∃ c t, natChars n = c :: t ∧ isDigitCh c = true := by
    intro fuel
    induction fuel with
    | zero =>
      intro n hn
      have h0 : n = 0 := by omega
      subst h0
      refine ⟨Char.ofNat (48 + 0), [], ?_, digit_char_isDigit 0 (by omega)⟩
      rw [natChars]
      rfl
    | succ fuel ih =>
      intro n hn
      by_cases hsmall : n < 10
      · refine ⟨Char.ofNat (48 + n), [], ?_, digit_char_isDigit n hsmall⟩
        rw [natChars]
        simp [hsmall]
      · obtain ⟨c, t, hct, hdig⟩ := ih (n / 10) (by omega)
        refine ⟨c, t ++ [Char.ofNat (48 + n % 10)], ?_, hdig⟩
        rw [natChars]
        simp [hsmall, hct]
  intro n
  exact main n n (Nat.le_refl _)

theorem parseNat0_natChars (n : Nat) (rest : List Char) (h : headSafe rest) :
    parseNat0 (natChars n ++ rest) = some (n, rest) := by
  obtain ⟨c, t, hct, hdig⟩ := natChars_head n
  have key : parseDigits 0 (natChars n ++ rest) = (n, rest) := by
    rw [parseDigits_natChars, parseDigits_stop _ _ h]
    norm_num
  rw [hct] at key ⊢
  show parseNat0 (c :: (t ++ rest)) = some (n, rest)
  rw [parseNat0, if_pos hdig]
  rw [show (c :: t ++ rest : List Char) = c :: (t ++ rest) from rfl] at key
  rw [parseDigits_digit _ _ _ hdig] at key
  norm_num at key
  rw [key]

end Exporter

namespace Exporter

open JsStr

def fuelVal : JVal → Nat
  | .arr xs => xs.length + 2
  | _ => 1

def fuelMems : ERec → Nat
  | [] => 1
  | (_, v) :: r => 1 + fuelVal v + fuelMems r

/-- Fuel sufficient to parse one serialized record object. -/
def fuelRec (r : ERec) : Nat := fuelMems r + 1

def fuelTopItems : List ERec → Nat
  | [] => 1
  | r :: rs => 1 + fuelRec r + fuelTopItems rs

/-- The key/value image of a record in parsed values. -/
def toPMems (r : ERec) : List (String × PVal) :=
  r.map fun kv => (kv.1, jvalToP kv.2)

theorem skipWs_idem (cs : List Char) : skipWs (skipWs cs) = skipWs cs := by
  induction cs with
  | nil => rfl
  | cons c t ih =>
    by_cases h : jsonWs c = true
    · rw [skipWs]
      simp only [h, if_true]
      exact ih
    · simp only [Bool.not_eq_true] at h
      rw [skipWs_cons_nonws c h, skipWs_cons_nonws c h]

theorem parseVal_skipWs (fuel : Nat) (cs : List Char) :
    parseVal fuel (skipWs cs) = parseVal fuel cs := by
  cases fuel with
  | zero => rfl
  | succ f =>
    rw [parseVal, parseVal, skipWs_idem]

theorem parseItems_skipWs (fuel : Nat) (cs : List Char) :
    parseItems fuel (skipWs cs) = parseItems fuel cs := by
  cases fuel with
  | zero => rfl
  | succ f =>
    rw [parseItems, parseItems, parseVal_skipWs]

theorem parseMembers_skipWs (fuel : Nat) (cs : List Char) :
    parseMembers fuel (skipWs cs) = parseMembers fuel cs := by
  cases fuel with
  | zero => rfl
  | succ f =>
    rw [parseMembers, parseMembers, skipWs_idem]

theorem digit_facts (c : Char) (h : isDigitCh c = true) :
    jsonWs c = false ∧ ¬c = '"' ∧ ¬c = '[' ∧ ¬c = '{' ∧ ¬c = 't' ∧
      ¬c = 'f' ∧ ¬c = 'n' ∧ ¬c = '-' := by
  simp only [isDigitCh, Bool.and_eq_true, decide_eq_true_eq] at h
  refine ⟨?_, ?_, ?_, ?_, ?_, ?_, ?_, ?_⟩
  · simp only [jsonWs, Bool.or_eq_false_iff, decide_eq_false_iff_not]
    refine ⟨⟨⟨?_, ?_⟩, ?_⟩, ?_⟩ <;>
      (rintro rfl; revert h; decide)
  all_goals (rintro rfl; revert h; decide)

theorem string_mk_toList (s : String) : String.mk s.toList = s := rfl

end Exporter

namespace Exporter

open JsStr

theorem parseVal_str (s : String) (fuel : Nat) (pre rest : List Char)
    (hpre : onlyWs pre) (hfuel : 1 ≤ fuel) :
    parseVal fuel (pre ++ (encStr s ++ rest)) = some (.str s, rest) := by
  obtain ⟨f, rfl⟩ : ∃ f, fuel = f + 1 := ⟨fuel - 1, by omega⟩
  rw [parseVal]
  have hX : encStr s ++ rest = '"' :: (escList s.toList ++ '"' :: rest) := by
    simp [encStr]
  rw [hX, skipWs_ws_append pre hpre, skipWs_cons_nonws '"' (by decide)]
  simp
  exact ⟨s.data, parseStrL_round s.data rest, rfl⟩

end Exporter

namespace Exporter

open JsStr

theorem skipWs_nl (Z : List Char) : skipWs ('\n' :: Z) = skipWs Z := by
  rw [skipWs, if_pos (by decide : jsonWs '\n' = true)]

theorem parseItems_nl (f : Nat) (Z : List Char) :
    parseItems f ('\n' :: Z) = parseItems f Z := by
  calc parseItems f ('\n' :: Z) = parseItems f (skipWs ('\n' :: Z)) :=
        (parseItems_skipWs f _).symm
    _ = parseItems f (skipWs Z) := by rw [skipWs_nl]
    _ = parseItems f Z := parseItems_skipWs f Z

theorem parseItems_strs : ∀ (xs : List String) (ind0 indC fuel : Nat)
    (rest : List Char), xs ≠ [] → xs.length + 1 ≤ fuel →
    parseItems fuel
        (serVal.serArrItems ind0 xs ++ '\n' :: (spaces indC ++ ']' :: rest))
      = some (xs.map PVal.str, rest) := by
  intro xs
  induction xs with
  | nil => intro _ _ _ _ h _; exact absurd rfl h
  | cons x ys ih =>
    intro ind0 indC fuel rest _ hfuel
    obtain ⟨f, rfl⟩ : ∃ f, fuel = f + 1 := ⟨fuel - 1, by omega⟩
    rw [parseItems]
    cases ys with
    | nil =>
      have hser : serVal.serArrItems ind0 [x] ++ '\n' :: (spaces indC ++ ']' :: rest)
          = spaces ind0 ++ (encStr x ++ ('\n' :: (spaces indC ++ ']' :: rest))) := by
        simp [serVal.serArrItems, List.append_assoc]
      rw [hser, parseVal_str x f _ _ (onlyWs_spaces ind0)
        (by simp only [List.length_cons, List.length_nil] at hfuel; omega)]
      have hskip : skipWs ('\n' :: (spaces indC ++ ']' :: rest)) = ']' :: rest := by
        rw [skipWs_nl, skipWs_ws_append _ (onlyWs_spaces indC),
          skipWs_cons_nonws ']' (by decide)]
      simp [hskip]
    | cons y ys' =>
      have hser : serVal.serArrItems ind0 (x :: y :: ys')
            ++ '\n' :: (spaces indC ++ ']' :: rest)
          = spaces ind0 ++ (encStr x ++ (',' :: '\n' ::
              (serVal.serArrItems ind0 (y :: ys')
                ++ '\n' :: (spaces indC ++ ']' :: rest)))) := by
        simp [serVal.serArrItems, List.append_assoc]
      rw [hser, parseVal_str x f _ _ (onlyWs_spaces ind0)
        (by simp only [List.length_cons] at hfuel; omega)]
      have hrec := parseItems_nl f
        (serVal.serArrItems ind0 (y :: ys') ++ '\n' :: (spaces indC ++ ']' :: rest))
      simp only [skipWs_cons_nonws ',' (by decide), hrec,
        ih ind0 indC f rest (by simp)
          (by simp only [List.length_cons] at hfuel ⊢; omega)]
      simp

end Exporter

namespace Exporter

open JsStr

theorem fuelVal_pos (v : JVal) : 1 ≤ fuelVal v := by
  cases v <;> simp [fuelVal]

theorem parseVal_ser (v : JVal) (ind : Nat) (fuel : Nat) (pre rest : List Char)
    (hpre : onlyWs pre) (hfuel : fuelVal v ≤ fuel) (hsafe : headSafe rest) :
    parseVal fuel (pre ++ (serVal ind v ++ rest)) = some (jvalToP v, rest) := by
  obtain ⟨f, rfl⟩ : ∃ f, fuel = f + 1 :=
    ⟨fuel - 1, by have := fuelVal_pos v; omega⟩
  cases v with
  | str s => exact parseVal_str s (f + 1) pre rest hpre (by omega)
  | int n =>
    rw [parseVal]
    by_cases hneg : n < 0
    · have hser : serVal ind (.int n) ++ rest
          = '-' :: (natChars n.natAbs ++ rest) := by
        simp [serVal, intChars, hneg]
      rw [hser, skipWs_ws_append pre hpre, skipWs_cons_nonws '-' (by decide)]
      simp only [parseNat0_natChars n.natAbs rest hsafe]
      simp only [show ¬('-' : Char) = '"' from by decide,
        show ¬('-' : Char) = '[' from by decide,
        show ¬('-' : Char) = '{' from by decide,
        show ¬('-' : Char) = 't' from by decide,
        show ¬('-' : Char) = 'f' from by decide,
        show ¬('-' : Char) = 'n' from by decide,
        if_false, if_pos (rfl : ('-' : Char) = '-')]
      rw [if_pos trivial]
      have habs : (-(n.natAbs : Int)) = n := by omega
      show some (PVal.int (-(n.natAbs : Int)), rest) = some (.int n, rest)
      rw [habs]
    · obtain ⟨c, t, hct, hdig⟩ := natChars_head n.toNat
      obtain ⟨hws, h1, h2, h3, h4, h5, h6, h7⟩ := digit_facts c hdig
      have hser : serVal ind (.int n) ++ rest = c :: (t ++ rest) := by
        show intChars n ++ rest = _
        rw [intChars, if_neg hneg, hct]
        rfl
      rw [hser, skipWs_ws_append pre hpre, skipWs_cons_nonws c hws]
      simp only [if_neg h1, if_neg h2, if_neg h3, if_neg h4, if_neg h5,
        if_neg h6, if_neg h7, hdig, if_true]
      have hkey := parseNat0_natChars n.toNat rest hsafe
      rw [hct] at hkey
      rw [show ((c :: t : List Char) ++ rest) = c :: (t ++ rest) from rfl,
        parseNat0, if_pos hdig] at hkey
      have hpair := Option.some.inj hkey
      rw [hpair]
      have htn : ((n.toNat : Nat) : Int) = n := by omega
      show some (PVal.int ((n.toNat : Nat) : Int), rest) = some (.int n, rest)
      rw [htn]
  | bool b =>
    rw [parseVal]
    cases b with
    | true =>
      have hser : serVal ind (.bool true) ++ rest
          = 't' :: 'r' :: 'u' :: 'e' :: rest := rfl
      rw [hser, skipWs_ws_append pre hpre, skipWs_cons_nonws 't' (by decide)]
      simp [List.isPrefixOf, jvalToP]
    | false =>
      have hser : serVal ind (.bool false) ++ rest
          = 'f' :: 'a' :: 'l' :: 's' :: 'e' :: rest := rfl
      rw [hser, skipWs_ws_append pre hpre, skipWs_cons_nonws 'f' (by decide)]
      simp [List.isPrefixOf, jvalToP]
  | null =>
    rw [parseVal]
    have hser : serVal ind .null ++ rest = 'n' :: 'u' :: 'l' :: 'l' :: rest := rfl
    rw [hser, skipWs_ws_append pre hpre, skipWs_cons_nonws 'n' (by decide)]
    simp [List.isPrefixOf, jvalToP]
  | arr xs =>
    cases xs with
    | nil =>
      rw [parseVal]
      have hser : serVal ind (.arr []) ++ rest = '[' :: ']' :: rest := rfl
      rw [hser, skipWs_ws_append pre hpre, skipWs_cons_nonws '[' (by decide)]
      simp [skipWs_cons_nonws ']' (by decide), jvalToP]
    | cons x ys =>
      rw [parseVal]
      have hser : serVal ind (.arr (x :: ys)) ++ rest
          = '[' :: '\n' :: (serVal.serArrItems (ind + 2) (x :: ys)
              ++ '\n' :: (spaces ind ++ ']' :: rest)) := by
        simp [serVal, List.append_assoc]
      rw [hser, skipWs_ws_append pre hpre, skipWs_cons_nonws '[' (by decide)]
      have hx : ∃ W, skipWs ('\n' :: (serVal.serArrItems (ind + 2) (x :: ys)
          ++ '\n' :: (spaces ind ++ ']' :: rest))) = '"' :: W := by
        rw [skipWs_nl]
        cases ys with
        | nil =>
          rw [show serVal.serArrItems (ind + 2) [x]
                ++ '\n' :: (spaces ind ++ ']' :: rest)
              = spaces (ind + 2) ++ ('"' :: (escList x.toList
                ++ '"' :: ('\n' :: (spaces ind ++ ']' :: rest)))) from by
            simp [serVal.serArrItems, encStr, List.append_assoc]]
          rw [skipWs_ws_append _ (onlyWs_spaces _),
            skipWs_cons_nonws '"' (by decide)]
          exact ⟨_, rfl⟩
        | cons y ys' =>
          rw [show serVal.serArrItems (ind + 2) (x :: y :: ys')
                ++ '\n' :: (spaces ind ++ ']' :: rest)
              = spaces (ind + 2) ++ ('"' :: (escList x.toList
                ++ '"' :: (',' :: '\n' :: (serVal.serArrItems (ind + 2) (y :: ys')
                  ++ '\n' :: (spaces ind ++ ']' :: rest))))) from by
            simp [serVal.serArrItems, encStr, List.append_assoc]]
          rw [skipWs_ws_append _ (onlyWs_spaces _),
            skipWs_cons_nonws '"' (by decide)]
          exact ⟨_, rfl⟩
      obtain ⟨W, hW⟩ := hx
      simp only [hW]
      simp only [show ¬('[' : Char) = '"' from by decide, if_false,
        if_pos (rfl : ('[' : Char) = '['),
        show ¬('"' : Char) = ']' from by decide]
      rw [← hW, parseItems_skipWs, parseItems_nl,
        parseItems_strs (x :: ys) (ind + 2) ind f rest (by simp)
          (by simp only [fuelVal, List.length_cons] at hfuel ⊢; omega)]
      simp [jvalToP]

end Exporter

namespace Exporter

open JsStr

theorem parseMembers_nl (f : Nat) (Z : List Char) :
    parseMembers f ('\n' :: Z) = parseMembers f Z := by
  calc parseMembers f ('\n' :: Z) = parseMembers f (skipWs ('\n' :: Z)) :=
        (parseMembers_skipWs f _).symm
    _ = parseMembers f (skipWs Z) := by rw [skipWs_nl]
    _ = parseMembers f Z := parseMembers_skipWs f Z

theorem fuelMems_pos (r : ERec) : 1 ≤ fuelMems r := by
  cases r with
  | nil => simp [fuelMems]
  | cons kv t => obtain ⟨k, v⟩ := kv; simp [fuelMems]; omega

theorem onlyWs_space : onlyWs [' '] := by
  intro c hc
  simp only [List.mem_singleton] at hc
  subst hc
  decide

theorem parseMembers_ser : ∀ (r : ERec) (k : String) (v : JVal)
    (ind indC fuel : Nat) (rest : List Char),
    fuelMems ((k, v) :: r) ≤ fuel →
    parseMembers fuel
      (serMembers ind ((k, v) :: r) ++ '\n' :: (spaces indC ++ '}' :: rest))
      = some (toPMems ((k, v) :: r), rest) := by
  intro r
  induction r with
  | nil =>
    intro k v ind indC fuel rest hfuel
    obtain ⟨f, rfl⟩ : ∃ f, fuel = f + 1 :=
      ⟨fuel - 1, by simp [fuelMems] at hfuel; omega⟩
    have hvf : fuelVal v ≤ f := by
      simp only [fuelMems] at hfuel
      omega
    rw [parseMembers]
    have hcs : serMembers ind [(k, v)] ++ '\n' :: (spaces indC ++ '}' :: rest)
        = spaces ind ++ ('"' :: (escList k.toList
            ++ '"' :: (':' :: ' ' :: (serVal ind v
              ++ '\n' :: (spaces indC ++ '}' :: rest))))) := by
      simp [serMembers, encStr, List.append_assoc]
    rw [hcs, skipWs_ws_append _ (onlyWs_spaces _),
      skipWs_cons_nonws '"' (by decide)]
    have hv := parseVal_ser v ind f [' ']
        ('\n' :: (spaces indC ++ '}' :: rest)) onlyWs_space hvf
        (by show isDigitCh '\n' = false; decide)
    simp only [List.singleton_append] at hv
    have hskip : skipWs ('\n' :: (spaces indC ++ '}' :: rest))
        = '}' :: rest := by
      rw [skipWs_nl, skipWs_ws_append _ (onlyWs_spaces _),
        skipWs_cons_nonws '}' (by decide)]
    simp only [if_pos rfl, parseStrL_round,
      skipWs_cons_nonws ':' (by decide), hv, hskip]
    simp [toPMems, string_mk_toList]
  | cons kv r' ih =>
    obtain ⟨k2, v2⟩ := kv
    intro k v ind indC fuel rest hfuel
    obtain ⟨f, rfl⟩ : ∃ f, fuel = f + 1 :=
      ⟨fuel - 1, by
        have := fuelMems_pos ((k2, v2) :: r')
        simp only [fuelMems] at hfuel
        omega⟩
    have hvf : fuelVal v ≤ f := by
      have := fuelMems_pos ((k2, v2) :: r')
      simp only [fuelMems] at hfuel
      omega
    have hrf : fuelMems ((k2, v2) :: r') ≤ f := by
      have := fuelVal_pos v
      simp only [fuelMems] at hfuel ⊢
      omega
    rw [parseMembers]
    have hcs : serMembers ind ((k, v) :: (k2, v2) :: r')
          ++ '\n' :: (spaces indC ++ '}' :: rest)
        = spaces ind ++ ('"' :: (escList k.toList
            ++ '"' :: (':' :: ' ' :: (serVal ind v
              ++ ',' :: '\n' :: (serMembers ind ((k2, v2) :: r')
                ++ '\n' :: (spaces indC ++ '}' :: rest)))))) := by
      simp [serMembers, encStr, List.append_assoc]
    rw [hcs, skipWs_ws_append _ (onlyWs_spaces _),
      skipWs_cons_nonws '"' (by decide)]
    have hv := parseVal_ser v ind f [' ']
        (',' :: '\n' :: (serMembers ind ((k2, v2) :: r')
          ++ '\n' :: (spaces indC ++ '}' :: rest))) onlyWs_space hvf
        (by show isDigitCh ',' = false; decide)
    simp only [List.singleton_append] at hv
    have hrec : parseMembers f ('\n' :: (serMembers ind ((k2, v2) :: r')
          ++ '\n' :: (spaces indC ++ '}' :: rest)))
        = some (toPMems ((k2, v2) :: r'), rest) := by
      rw [parseMembers_nl]
      exact ih k2 v2 ind indC f rest hrf
    simp only [if_pos rfl, parseStrL_round,
      skipWs_cons_nonws ':' (by decide), hv,
      skipWs_cons_nonws ',' (by decide), hrec]
    simp [toPMems, string_mk_toList]

end Exporter

namespace Exporter

open JsStr

theorem parseVal_obj (r : ERec) (ind fuel : Nat) (pre rest : List Char)
    (hpre : onlyWs pre) (hfuel : fuelRec r ≤ fuel) :
    parseVal fuel (pre ++ (serObj ind r ++ rest))
      = some (.obj (toPMems r), rest) := by
  obtain ⟨f, rfl⟩ : ∃ f, fuel = f + 1 :=
    ⟨fuel - 1, by
      have := fuelMems_pos r
      simp only [fuelRec] at hfuel
      omega⟩
  have hmf : fuelMems r ≤ f := by
    simp only [fuelRec] at hfuel
    omega
  cases r with
  | nil =>
    rw [parseVal]
    have hser : serObj ind [] ++ rest = '{' :: '}' :: rest := rfl
    rw [hser, skipWs_ws_append pre hpre, skipWs_cons_nonws '{' (by decide)]
    simp [skipWs_cons_nonws '}' (by decide), toPMems]
  | cons kv t =>
    obtain ⟨k, v⟩ := kv
    rw [parseVal]
    have hser : serObj ind ((k, v) :: t) ++ rest
        = '{' :: '\n' :: (serMembers (ind + 2) ((k, v) :: t)
            ++ '\n' :: (spaces ind ++ '}' :: rest)) := by
      simp [serObj, List.append_assoc]
    rw [hser, skipWs_ws_append pre hpre, skipWs_cons_nonws '{' (by decide)]
    have hx : ∃ W, skipWs ('\n' :: (serMembers (ind + 2) ((k, v) :: t)
        ++ '\n' :: (spaces ind ++ '}' :: rest))) = '"' :: W := by
      rw [skipWs_nl]
      cases t with
      | nil =>
        rw [show serMembers (ind + 2) [(k, v)]
              ++ '\n' :: (spaces ind ++ '}' :: rest)
            = spaces (ind + 2) ++ ('"' :: (escList k.toList
              ++ '"' :: (':' :: ' ' :: (serVal (ind + 2) v
                ++ '\n' :: (spaces ind ++ '}' :: rest))))) from by
          simp [serMembers, encStr, List.append_assoc]]
        rw [skipWs_ws_append _ (onlyWs_spaces _),
          skipWs_cons_nonws '"' (by decide)]
        exact ⟨_, rfl⟩
      | cons kv2 t' =>
        obtain ⟨k2, v2⟩ := kv2
        rw [show serMembers (ind + 2) ((k, v) :: (k2, v2) :: t')
              ++ '\n' :: (spaces ind ++ '}' :: rest)
            = spaces (ind + 2) ++ ('"' :: (escList k.toList
              ++ '"' :: (':' :: ' ' :: (serVal (ind + 2) v
                ++ ',' :: '\n' :: (serMembers (ind + 2) ((k2, v2) :: t')
                  ++ '\n' :: (spaces ind ++ '}' :: rest)))))) from by
          simp [serMembers, encStr, List.append_assoc]]
        rw [skipWs_ws_append _ (onlyWs_spaces _),
          skipWs_cons_nonws '"' (by decide)]
        exact ⟨_, rfl⟩
    obtain ⟨W, hW⟩ := hx
    simp only [hW]
    simp only [show ¬('{' : Char) = '"' from by decide, if_false,
      show ¬('{' : Char) = '[' from by decide,
      if_pos (rfl : ('{' : Char) = '{'),
      show ¬('"' : Char) = '}' from by decide]
    rw [← hW, parseMembers_skipWs, parseMembers_nl,
      parseMembers_ser t k v (ind + 2) ind f rest hmf]
    simp

end Exporter

namespace Exporter

open JsStr

theorem parseItems_recs : ∀ (rs : List ERec) (r : ERec) (ind indC fuel : Nat)
    (rest : List Char),
    fuelTopItems (r :: rs) ≤ fuel →
    parseItems fuel
      (serRecsItems ind (r :: rs) ++ '\n' :: (spaces indC ++ ']' :: rest))
      = some ((r :: rs).map (fun q => PVal.obj (toPMems q)), rest) := by
  intro rs
  induction rs with
  | nil =>
    intro r ind indC fuel rest hfuel
    obtain ⟨f, rfl⟩ : ∃ f, fuel = f + 1 :=
      ⟨fuel - 1, by simp [fuelTopItems] at hfuel; omega⟩
    have hrf : fuelRec r ≤ f := by
      simp [fuelTopItems] at hfuel
      omega
    rw [parseItems]
    have hcs : serRecsItems ind [r] ++ '\n' :: (spaces indC ++ ']' :: rest)
        = spaces ind ++ (serObj ind r
            ++ '\n' :: (spaces indC ++ ']' :: rest)) := by
      simp [serRecsItems, List.append_assoc]
    rw [hcs, parseVal_obj r ind f (spaces ind) _ (onlyWs_spaces _) hrf]
    have hskip : skipWs ('\n' :: (spaces indC ++ ']' :: rest))
        = ']' :: rest := by
      rw [skipWs_nl, skipWs_ws_append _ (onlyWs_spaces _),
        skipWs_cons_nonws ']' (by decide)]
    simp [hskip]
  | cons r2 rs' ih =>
    intro r ind indC fuel rest hfuel
    obtain ⟨f, rfl⟩ : ∃ f, fuel = f + 1 :=
      ⟨fuel - 1, by simp [fuelTopItems] at hfuel; omega⟩
    have hrf : fuelRec r ≤ f := by
      have h1 : 1 ≤ fuelTopItems (r2 :: rs') := by simp [fuelTopItems]; omega
      simp only [fuelTopItems] at hfuel
      omega
    have hrest : fuelTopItems (r2 :: rs') ≤ f := by
      have h1 : 1 ≤ fuelRec r := by
        have := fuelMems_pos r
        simp [fuelRec]
      simp only [fuelTopItems] at hfuel ⊢
      omega
    rw [parseItems]
    have hcs : serRecsItems ind (r :: r2 :: rs')
          ++ '\n' :: (spaces indC ++ ']' :: rest)
        = spaces ind ++ (serObj ind r ++ ',' :: '\n' ::
            (serRecsItems ind (r2 :: rs')
              ++ '\n' :: (spaces indC ++ ']' :: rest))) := by
      simp [serRecsItems, List.append_assoc]
    rw [hcs, parseVal_obj r ind f (spaces ind) _ (onlyWs_spaces _) hrf]
    have hrec : parseItems f ('\n' :: (serRecsItems ind (r2 :: rs')
          ++ '\n' :: (spaces indC ++ ']' :: rest)))
        = some ((r2 :: rs').map (fun q => PVal.obj (toPMems q)), rest) := by
      rw [parseItems_nl]
      exact ih r2 ind indC f rest hrest
    simp [skipWs_cons_nonws ',' (by decide), hrec]

theorem serArrItems_len (ind : Nat) : ∀ xs : List String,
    xs.length ≤ (serVal.serArrItems ind xs).length := by
  intro xs
  induction xs with
  | nil => simp [serVal.serArrItems]
  | cons s t ih =>
    cases t with
    | nil =>
      simp [serVal.serArrItems, encStr, spaces]
      omega
    | cons s2 t' =>
      simp [serVal.serArrItems, encStr, spaces] at ih ⊢
      omega

theorem serVal_len (v : JVal) (ind : Nat) :
    fuelVal v ≤ (serVal ind v).length := by
  cases v with
  | str s => simp [fuelVal, serVal, encStr]
  | int n =>
    simp only [fuelVal, serVal]
    rw [intChars]
    by_cases h : n < 0
    · simp [h]
    · rw [if_neg h]
      obtain ⟨c, t, hct, _⟩ := natChars_head n.toNat
      rw [hct]
      simp
  | bool b => cases b <;> simp [fuelVal, serVal]
  | null => simp [fuelVal, serVal]
  | arr xs =>
    cases xs with
    | nil => simp [fuelVal, serVal]
    | cons x t =>
      have h := serArrItems_len (ind + 2) (x :: t)
      simp only [List.length_cons] at h
      simp [fuelVal, serVal, spaces]
      omega

theorem serMembers_len (ind : Nat) : ∀ r : ERec,
    fuelMems r ≤ (serMembers ind r).length + 1 := by
  intro r
  induction r with
  | nil => simp [fuelMems, serMembers]
  | cons kv t ih =>
    obtain ⟨k, v⟩ := kv
    cases t with
    | nil =>
      have hv := serVal_len v ind
      simp [fuelMems, serMembers, encStr, spaces]
      omega
    | cons kv2 t' =>
      obtain ⟨k2, v2⟩ := kv2
      have hv := serVal_len v ind
      simp [fuelMems, serMembers, encStr, spaces] at ih ⊢
      omega

theorem serObj_len (r : ERec) (ind : Nat) :
    fuelRec r ≤ (serObj ind r).length := by
  cases r with
  | nil => simp [fuelRec, fuelMems, serObj]
  | cons kv t =>
    obtain ⟨k, v⟩ := kv
    have h := serMembers_len (ind + 2) ((k, v) :: t)
    simp only [fuelRec]
    simp [serObj, spaces]
    omega

theorem serRecsItems_len (ind : Nat) : ∀ rs : List ERec,
    fuelTopItems rs ≤ (serRecsItems ind rs).length + 2 := by
  intro rs
  induction rs with
  | nil => simp [fuelTopItems, serRecsItems]
  | cons r t ih =>
    cases t with
    | nil =>
      have h := serObj_len r ind
      simp [fuelTopItems, serRecsItems, spaces]
      omega
    | cons r2 t' =>
      have h := serObj_len r ind
      simp [fuelTopItems, serRecsItems, spaces] at ih ⊢
      omega

theorem fuelTop_le_len (r : ERec) (rs : List ERec) :
    fuelTopItems (r :: rs) ≤ (serRecsArr 0 (r :: rs)).length := by
  have h := serRecsItems_len 2 (r :: rs)
  simp [serRecsArr, spaces]
  omega

end Exporter

namespace Exporter

open JsStr

theorem serObj_head (ind : Nat) (r : ERec) : ∃ W, serObj ind r = '{' :: W := by
  cases r with
  | nil => exact ⟨['}'], rfl⟩
  | cons kv t => exact ⟨_, rfl⟩

theorem serRecsItems_head (ind : Nat) (r : ERec) (rs : List ERec) :
    ∃ W, serRecsItems ind (r :: rs) = spaces ind ++ ('{' :: W) := by
  obtain ⟨W, hW⟩ := serObj_head ind r
  cases rs with
  | nil =>
    refine ⟨W, ?_⟩
    show spaces ind ++ serObj ind r = _
    rw [hW]
  | cons r2 rs' =>
    refine ⟨W ++ ',' :: '\n' :: serRecsItems ind (r2 :: rs'), ?_⟩
    show spaces ind ++ serObj ind r ++ ',' :: '\n' :: serRecsItems ind (r2 :: rs')
        = _
    rw [hW]
    simp [List.append_assoc]

theorem parseVal_top (r : ERec) (rs : List ERec) (F : Nat)
    (hF : fuelTopItems (r :: rs) ≤ F) :
    parseVal (F + 1) (serRecsArr 0 (r :: rs))
      = some (.arr ((r :: rs).map (fun q => PVal.obj (toPMems q))), []) := by
  rw [parseVal]
  have hser : serRecsArr 0 (r :: rs)
      = '[' :: '\n' :: (serRecsItems 2 (r :: rs)
          ++ '\n' :: (spaces 0 ++ ']' :: ([] : List Char))) := rfl
  rw [hser, skipWs_cons_nonws '[' (by decide)]
  have hx : ∃ W, skipWs ('\n' :: (serRecsItems 2 (r :: rs)
      ++ '\n' :: (spaces 0 ++ ']' :: ([] : List Char)))) = '{' :: W := by
    rw [skipWs_nl]
    obtain ⟨W, hW⟩ := serRecsItems_head 2 r rs
    rw [hW, List.append_assoc,
      show ('{' :: W) ++ ('\n' :: (spaces 0 ++ ']' :: ([] : List Char)))
        = '{' :: (W ++ '\n' :: (spaces 0 ++ ']' :: [])) from rfl,
      skipWs_ws_append _ (onlyWs_spaces _), skipWs_cons_nonws '{' (by decide)]
    exact ⟨_, rfl⟩
  obtain ⟨W, hW⟩ := hx
  simp only [hW]
  simp only [show ¬('[' : Char) = '"' from by decide, if_false,
    if_pos (rfl : ('[' : Char) = '['),
    show ¬('{' : Char) = ']' from by decide]
  rw [← hW, parseItems_skipWs, parseItems_nl,
    parseItems_recs rs r 2 0 F [] hF]
  simp

end Exporter

namespace Exporter

open JsStr

/-- C8: for every record list whose values are JSON-safe (strings, numbers,
booleans, arrays of strings, null — the value types of `JVal`), parsing the
output of `formatExportData data "json" _ _` back with `parseJson` succeeds
and yields a value structurally equal, field for field, to the input record
list (`toPVal data`). -/
theorem C8_json_roundtrip (data : List ERec) (nowWP nowUTC : String) :
    parseJson (formatExportData data "json" nowWP nowUTC)
      = some (toPVal data) := by
  rw [formatExportData, if_pos rfl]
  cases data with
  | nil => rfl
  | cons r rs =>
    rw [show jsonStringifyRecords (r :: rs) = serRecsArr 0 (r :: rs) from rfl,
      parseJson, parseVal_top r rs _ (fuelTop_le_len r rs)]
    simp [toPVal, toPMems, skipWs]

end Exporter
